import Mathlib

/-
Verification of the spectrum-processing pipeline (src/Python/spectrum.py).

Shallow embedding conventions:
  numpy/pandas float arrays are modelled as `List Rat`; elementwise numpy
  operations on equal-length arrays become `List.zipWith`; a Python crash
  (KeyError, IndexError, NameError, ValueError on floor(nan), argmin of an
  empty array) is modelled by `Option` with `none` for the crash; Python
  `int()` truncates toward zero and `math.floor` is the integer floor.
-/

set_option maxRecDepth 100000

/- ---------------------------------------------------------------- -/
/- Basic numeric helpers                                            -/
/- ---------------------------------------------------------------- -/

/-- Python `int()` on a float: truncation toward zero. -/
def pyInt (q : ℚ) : ℤ :=
  if 0 ≤ q then ⌊q⌋ else -⌊-q⌋

/-- Python 3 `round()` to an integer: round half to even. -/
def pyRound (q : ℚ) : ℤ :=
  let f : ℤ := ⌊q⌋
  let r : ℚ := q - (f : ℚ)
  if r < 1/2 then f
  else if 1/2 < r then f + 1
  else if f % 2 = 0 then f else f + 1

/-- Median of a list of values, as numpy and pandas compute it: sort, take
the middle element for odd length, the mean of the two middle ones for even
length. -/
def npMedian (l : List ℚ) : ℚ :=
  let s := l.insertionSort (fun a b => a ≤ b)
  if l.length % 2 = 1 then s.getD (l.length / 2) 0
  else (s.getD (l.length / 2 - 1) 0 + s.getD (l.length / 2) 0) / 2

/-- `np.argmax`: index of the first occurrence of the maximum value. -/
def npArgmax (l : List ℚ) : ℕ :=
  (List.range l.length).foldl (fun best i => if l.getD best 0 < l.getD i 0 then i else best) 0

/-- `np.argmin`: index of the first occurrence of the minimum value. -/
def npArgmin (l : List ℚ) : ℕ :=
  (List.range l.length).foldl (fun best i => if l.getD i 0 < l.getD best 0 then i else best) 0

/-- `arr.max()` of a numpy array. -/
def npMax (l : List ℚ) : ℚ := l.foldl max (l.getD 0 0)

/-- Fail-fast map: Python loops that index or look up fallibly abort the
whole call on the first error. -/
def mapOption {α β : Type} (f : α → Option β) : List α → Option (List β)
  | [] => some []
  | x :: rest =>
    match f x, mapOption f rest with
    | some y, some ys => some (y :: ys)
    | _, _ => none

/- ---------------------------------------------------------------- -/
/- Data model: one DFG acquisition                                  -/
/- ---------------------------------------------------------------- -/

/-- One DFG trace: name, wavenumber array `wn`, wavelength array `wl`,
intensity array `counts` (the mutable one). -/
structure Trace where
  name : String
  wn : List ℚ
  wl : List ℚ
  counts : List ℚ
deriving DecidableEq

instance : Inhabited Trace := ⟨⟨"", [], [], []⟩⟩

/-- The detector key the code derives: `int(np.median(dfg.wl))`. -/
def detectorKeyCode (wl : List ℚ) : ℤ := pyInt (npMedian wl)

/- ---------------------------------------------------------------- -/
/- Despiker: removeCRs / removeCRindDFG                             -/
/- ---------------------------------------------------------------- -/

/-- `pandas.Series(counts).rolling(window=7, center=True).median()`:
position `i` carries the median of `counts[i-3..i+3]` when that full
window exists and NaN (here `none`) otherwise. -/
def rollingMedians (counts : List ℚ) : List (Option ℚ) :=
  (List.range counts.length).map (fun i =>
    if 3 ≤ i ∧ i + 3 < counts.length then
      some (npMedian ((counts.drop (i - 3)).take 7))
    else none)

/-- One iteration of the NaN-replacement loop: `medians[i] = medians[3];
medians[len-1-i] = medians[len-4]`, executed in that order on the current
series. -/
def replaceEndStep (m : List (Option ℚ)) (i : ℕ) : List (Option ℚ) :=
  let m1 := m.set i (m.getD 3 none)
  m1.set (m1.length - 1 - i) (m1.getD (m1.length - 4) none)

/-- The NaN-replacement loop: `for i in range(3): medians[i] = medians[3];
medians[len-1-i] = medians[len-4]`.  Reading label 3 (or len-4) of a series
shorter than 4 raises, hence `none` for length at most 3. -/
def replaceEndMedians (ms : List (Option ℚ)) : Option (List (Option ℚ)) :=
  if ms.length ≤ 3 then none
  else some ((List.range 3).foldl replaceEndStep ms)

/-- The full median pipeline of `removeCRindDFG`. -/
def despikeMedians (counts : List ℚ) : Option (List (Option ℚ)) :=
  replaceEndMedians (rollingMedians counts)

/-- `spike[i] == 1` iff `counts[i] - medians[i] > threshold`; a NaN median
compares false. -/
def spikeOf (counts : List ℚ) (ms : List (Option ℚ)) (t : ℚ) (i : ℕ) : Bool :=
  match ms.getD i none with
  | some m => decide (t < counts.getD i 0 - m)
  | none => false

/-- Result of one neighbor-search loop (`for j in range(5)`): a non-spike
value was found, the array edge was hit (Python assigns `[]`), or the loop
ran to completion leaving the variable untouched. -/
inductive ScanRes where
  | found : ℚ → ScanRes
  | edge : ScanRes
  | unset : ScanRes
deriving DecidableEq

/-- The candidate neighbor positions strictly left of `i`, `none` marking an
out-of-range position (the code tests `i-1-j < 0` first). -/
def leftPositions (i : ℕ) : List (Option ℕ) :=
  (List.range 5).map (fun j => if j + 1 ≤ i then some (i - 1 - j) else none)

/-- The candidate neighbor positions strictly right of `i` in an array of
length `N` (the code tests `i+j+1 >= len(spike)` first). -/
def rightPositions (N i : ℕ) : List (Option ℕ) :=
  (List.range 5).map (fun j => if i + 1 + j < N then some (i + 1 + j) else none)

/-- One neighbor-search loop over the given candidate positions, reading
values from `c`: stop with `edge` at an out-of-range position, stop with the
value at the first non-spike position, otherwise fall through. -/
def scanSide (spike : ℕ → Bool) (c : List ℚ) : List (Option ℕ) → ScanRes
  | [] => .unset
  | none :: _ => .edge
  | some p :: rest => if spike p then scanSide spike c rest else .found (c.getD p 0)

/-- The values a scan contributes to `tempValArray` (an `edge` contributes
the empty array; a fall-through contributes nothing to append either). -/
def scanVals : ScanRes → List ℚ
  | .found v => [v]
  | .edge => []
  | .unset => []

/-- State of the replacement loop: the (mutated in place) counts array plus
the Python local variables `left` and `right`, which persist between
iterations; `none` means never assigned, `some none` means `[]`. -/
structure DespikeSt where
  counts : List ℚ
  leftVar : Option (Option ℚ)
  rightVar : Option (Option ℚ)
deriving DecidableEq

/-- Value of a Python variable after a scan: a fall-through leaves the old
binding (reading a never-assigned one later raises NameError). -/
def varAfter (old : Option (Option ℚ)) : ScanRes → Option (Option ℚ)
  | .found v => some (some v)
  | .edge => some none
  | .unset => old

/-- One iteration of the replacement loop at index `i`: when `spike i`,
scan both sides over the current (partially updated) counts, average the
collected values and write `math.floor` of the mean at `i`.  `none` models
NameError on a never-assigned variable and `math.floor(nan)` on an empty
mean. -/
def despikeStep (spike : ℕ → Bool) (N : ℕ) (st : DespikeSt) (i : ℕ) : Option DespikeSt :=
  if spike i then
    let lres := scanSide spike st.counts (leftPositions i)
    let rres := scanSide spike st.counts (rightPositions N i)
    match varAfter st.leftVar lres, varAfter st.rightVar rres with
    | some lv, some rv =>
      let vals := lv.toList ++ rv.toList
      if vals.isEmpty then none
      else some ⟨st.counts.set i ((⌊vals.sum / (vals.length : ℚ)⌋ : ℤ) : ℚ), some lv, some rv⟩
    | _, _ => none
  else some st

/-- The replacement loop over a list of indices. -/
def despikeLoop (spike : ℕ → Bool) (N : ℕ) : List ℕ → DespikeSt → Option DespikeSt
  | [], st => some st
  | i :: rest, st =>
    match despikeStep spike N st i with
    | none => none
    | some st2 => despikeLoop spike N rest st2

/-- `removeCRindDFG(dfg, threshold)` acting on the counts array: compute
the adjusted rolling medians, flag spikes, and if any exist run the
in-place replacement loop. -/
def removeCRindDFG (counts : List ℚ) (t : ℚ) : Option (List ℚ) :=
  match despikeMedians counts with
  | none => none
  | some ms =>
    if (List.range counts.length).all (fun i => !spikeOf counts ms t i) then some counts
    else (despikeLoop (spikeOf counts ms t) counts.length
            (List.range counts.length) ⟨counts, none, none⟩).map DespikeSt.counts

/-- Replacement value of the strict two-pass despiker of the specification:
both neighbor searches read only the immutable pre-replacement snapshot, a
side that finds nothing contributes no value, and the mean of the collected
values is floored (`none` when no value at all was collected). -/
def twoPassValue (counts : List ℚ) (spike : ℕ → Bool) (N i : ℕ) : Option ℚ :=
  let vals := scanVals (scanSide spike counts (leftPositions i)) ++
              scanVals (scanSide spike counts (rightPositions N i))
  if vals.isEmpty then none
  else some ((⌊vals.sum / (vals.length : ℚ)⌋ : ℤ) : ℚ)

/-- The strict two-pass despiker described by the specification: detect all
spikes from the immutable snapshot of counts and medians, then compute every
replacement from that same snapshot. -/
def despikeTwoPassSpec (counts : List ℚ) (t : ℚ) : Option (List ℚ) :=
  match despikeMedians counts with
  | none => none
  | some ms =>
    mapOption (fun i =>
      if spikeOf counts ms t i then twoPassValue counts (spikeOf counts ms t) counts.length i
      else some (counts.getD i 0)) (List.range counts.length)

/-- Clamped window center: the adjusted median at position `i` is the full
centered median at `min (max i 3) (N - 4)`. -/
def clampCenter (N i : ℕ) : ℕ := min (max i 3) (N - 4)

/-- The 7-point window of counts centered at `c`. -/
def windowAt (counts : List ℚ) (c : ℕ) : List ℚ := (counts.drop (c - 3)).take 7

/- ---------------------------------------------------------------- -/
/- BackgroundMatcher: subtractBGs                                   -/
/- ---------------------------------------------------------------- -/

/-- The inner loop of `subtractBGs` for one sample: subtract in sequence the
counts of every background whose detector key matches, and report whether
any matched. -/
def applyBGs (key : ℤ) : List Trace → List ℚ → List ℚ × Bool
  | [], c => (c, false)
  | bg :: rest, c =>
    if detectorKeyCode bg.wl = key then
      ((applyBGs key rest (c.zipWith (fun a b => a - b) bg.counts)).1, true)
    else applyBGs key rest c

/-- `subtractBGs` acting on one sample trace. -/
def subtractOne (bgs : List Trace) (dfg : Trace) : Trace × Bool :=
  let r := applyBGs (detectorKeyCode dfg.wl) bgs dfg.counts
  ({ dfg with counts := r.1 }, r.2)

/-- `subtractBGs`: mutate every sample in place and log the names of the
samples for which no background was found (`print("No bg found ...")`). -/
def subtractBGs (dfgs bgs : List Trace) : List Trace × List String :=
  (dfgs.map (fun d => (subtractOne bgs d).1),
   (dfgs.filter (fun d => !(subtractOne bgs d).2)).map Trace.name)

/- ---------------------------------------------------------------- -/
/- Aligner: padDFGs                                                 -/
/- ---------------------------------------------------------------- -/

/-- The hardcoded padding dictionary of `padDFGs`. -/
def padding (k : String) : Option (ℕ × ℕ) :=
  if k = "det620" then some (0, 409)
  else if k = "det625" then some (58, 351)
  else if k = "det630" then some (116, 293)
  else if k = "det635" then some (174, 235)
  else if k = "det640" then some (232, 177)
  else if k = "det645" then some (291, 118)
  else if k = "det655" then some (409, 0)
  else none

/-- The lookup key: `'det' + str(int(np.median(dfg.wl)))`. -/
def padKey (dfg : Trace) : String := "det" ++ toString (detectorKeyCode dfg.wl)

/-- `padDFGs` on one trace: a missing key is a KeyError (fatal). -/
def padOne (dfg : Trace) : Option Trace :=
  match padding (padKey dfg) with
  | none => none
  | some lr =>
    some { dfg with counts := List.replicate lr.1 0 ++ dfg.counts ++ List.replicate lr.2 0 }

/-- `padDFGs` over the deep-copied sample list. -/
def padDFGs (dfgs : List Trace) : Option (List Trace) := mapOption padOne dfgs

/- ---------------------------------------------------------------- -/
/- Smoother and Aggregator: smoothDFGs / sumFullDFGs                -/
/- ---------------------------------------------------------------- -/

/-- The orchestrator state the smoothing and summing stages touch. -/
structure SpectrumSt where
  dfgsFull : List Trace
  dfgsPreSmoothed : Option (List Trace)
  dfgSum : Option (List ℚ)
deriving DecidableEq

/-- `smoothDFGs(sigma)`: deep-copy `dfgsFull` into `dfgsPreSmoothed`, then
overwrite each trace of `dfgsFull` with its filtered counts.  The Gaussian
filter itself is scipy library code outside this repository, so it enters
as an explicit function parameter `g` standing for
`gaussian_filter1d(., sigma)`. -/
def smoothDFGs (g : List ℚ → List ℚ) (s : SpectrumSt) : SpectrumSt :=
  { dfgsFull := s.dfgsFull.map (fun d => { d with counts := g d.counts }),
    dfgsPreSmoothed := some s.dfgsFull,
    dfgSum := s.dfgSum }

/-- `sumFullDFGs` accumulator: start from `np.zeros(853)` and add every
padded counts array elementwise. -/
def sumCounts (dfgs : List Trace) : List ℚ :=
  dfgs.foldl (fun acc d => acc.zipWith (fun a b => a + b) d.counts) (List.replicate 853 0)

/-- `sumFullDFGs`: store the sum of the current `dfgsFull`. -/
def sumFullDFGs (s : SpectrumSt) : SpectrumSt :=
  { s with dfgSum := some (sumCounts s.dfgsFull) }

/- ---------------------------------------------------------------- -/
/- Truncator: findTruncateIndices / truncateFullDFGs                -/
/- ---------------------------------------------------------------- -/

/-- `findTruncateIndices` on one padded trace: `argmin` over an empty slice
(a maximum at index 0, or an empty array) raises, hence `none`. -/
def findTruncateOne (counts : List ℚ) (thr : ℚ) : Option (ℕ × ℕ) :=
  if counts.length = 0 then none
  else
    let maxVal := npMax counts
    let maxIndex := npArgmax counts
    if maxIndex = 0 then none
    else
      some (npArgmin ((counts.take maxIndex).map (fun x => |x - maxVal * thr|)),
            maxIndex + npArgmin ((counts.drop maxIndex).map (fun x => |x - maxVal * thr|)))

/-- `findTruncateIndices` over the reference collection, in input order. -/
def findTruncateIndices (dfgsFull : List Trace) (thr : ℚ) : Option (List (ℕ × ℕ)) :=
  mapOption (fun dfg => findTruncateOne dfg.counts thr) dfgsFull

/-- Slice assignment `counts[:k] = 0`. -/
def zeroBefore (l : List ℚ) (k : ℕ) : List ℚ :=
  List.replicate (min k l.length) 0 ++ l.drop k

/-- Slice assignment `counts[k:] = 0`. -/
def zeroFrom (l : List ℚ) (k : ℕ) : List ℚ :=
  l.take k ++ List.replicate (l.length - k) 0

/-- `truncateFullDFGs` on one counts array. -/
def truncateOne (l : List ℚ) (li ri : ℕ) : List ℚ := zeroFrom (zeroBefore l li) ri

/-- `truncateFullDFGs(gold)`: deep-copy `dfgsFull` and zero each copy
outside the positionally matched index pair; indexing `truncateIndices[i]`
past its end raises (fatal), hence `none` when the index list is shorter
than the target collection. -/
def truncateFullDFGs (dfgsFull : List Trace) (inds : List (ℕ × ℕ)) : Option (List Trace) :=
  if dfgsFull.length ≤ inds.length then
    some ((dfgsFull.zip inds).map
      (fun p => { p.1 with counts := truncateOne p.1.counts p.2.1 p.2.2 }))
  else none

/- ---------------------------------------------------------------- -/
/- General helper lemmas                                            -/
/- ---------------------------------------------------------------- -/

theorem getD_set_iff {α : Type} (l : List α) (i j : ℕ) (v d : α) :
    (l.set i v).getD j d = if j = i ∧ j < l.length then v else l.getD j d := by
  rw [List.getD_eq_getElem?_getD, List.getD_eq_getElem?_getD, List.getElem?_set]
  by_cases h1 : i = j
  · subst h1
    by_cases h2 : i < l.length
    · simp [h2]
    · simp [h2, List.getElem?_eq_none (Nat.le_of_not_lt h2)]
  · have hni : ¬(j = i ∧ j < l.length) := fun hc => h1 hc.1.symm
    rw [if_neg h1, if_neg hni]

theorem getD_map_range {α : Type} (f : ℕ → α) (n j : ℕ) (d : α) :
    ((List.range n).map f).getD j d = if j < n then f j else d := by
  by_cases h : j < n
  · rw [List.getD_eq_getElem _ _ (by simpa using h), List.getElem_map, List.getElem_range, if_pos h]
  · rw [List.getD_eq_default _ _ (by simpa using Nat.le_of_not_lt h), if_neg h]

theorem mapOption_eq_some_of_all {α β : Type} (f : α → Option β) (g : α → β) :
    ∀ (l : List α), (∀ x ∈ l, f x = some (g x)) → mapOption f l = some (l.map g)
  | [], _ => rfl
  | x :: rest, h => by
    have hx : f x = some (g x) := h x (by simp)
    have hr := mapOption_eq_some_of_all f g rest (fun y hy => h y (by simp [hy]))
    simp [mapOption, hx, hr]

theorem mapOption_eq_none_of_mem {α β : Type} (f : α → Option β) :
    ∀ (l : List α) (x : α), x ∈ l → f x = none → mapOption f l = none
  | [], x, hx, _ => absurd hx (by simp)
  | y :: rest, x, hx, hfx => by
    rcases List.mem_cons.mp hx with h | h
    · subst h; simp [mapOption, hfx]
    · have := mapOption_eq_none_of_mem f rest x h hfx
      simp only [mapOption, this]
      cases f y <;> rfl

theorem mapOption_isSome_iff {α β : Type} (f : α → Option β) :
    ∀ (l : List α), (mapOption f l).isSome = true ↔ ∀ x ∈ l, (f x).isSome = true
  | [] => by simp [mapOption]
  | y :: rest => by
    have ih := mapOption_isSome_iff f rest
    constructor
    · intro h x hx
      rcases List.mem_cons.mp hx with hh | hh
      · subst hh
        by_contra hnone
        rw [Option.not_isSome_iff_eq_none] at hnone
        simp [mapOption, hnone] at h
      · refine (ih.mp ?_) x hh
        simp only [mapOption] at h
        cases hfy : f y <;> rw [hfy] at h
        · simp at h
        · cases hr : mapOption f rest <;> rw [hr] at h
          · simp at h
          · simp [hr]
    · intro h
      have hy : (f y).isSome = true := h y (by simp)
      have hr : (mapOption f rest).isSome = true := ih.mpr (fun x hx => h x (by simp [hx]))
      rcases Option.isSome_iff_exists.mp hy with ⟨v, hv⟩
      rcases Option.isSome_iff_exists.mp hr with ⟨vs, hvs⟩
      simp [mapOption, hv, hvs]

theorem one_le_countP_at (p : ℚ → Bool) :
    ∀ (w : List ℚ) (j : ℕ), j < w.length → p (w.getD j 0) = true → 1 ≤ w.countP p
  | [], j, hj, _ => by simp at hj
  | x :: xs, 0, _, h0 => by
    have hx : p x = true := by simpa [List.getD] using h0
    rw [List.countP_cons_of_pos _ _ hx]
    omega
  | x :: xs, j + 1, hj, h0 => by
    have := one_le_countP_at p xs j (by simpa using Nat.lt_of_succ_lt_succ hj)
      (by simpa [List.getD] using h0)
    rw [List.countP_cons]
    exact Nat.le_trans this (Nat.le_add_right _ _)

theorem two_le_countP_at (p : ℚ → Bool) :
    ∀ (w : List ℚ) (j : ℕ), j + 1 < w.length →
    p (w.getD j 0) = true → p (w.getD (j+1) 0) = true → 2 ≤ w.countP p
  | [], j, hj, _, _ => by simp at hj
  | x :: xs, 0, hj, h0, h1 => by
    have hx : p x = true := by simpa [List.getD] using h0
    have := one_le_countP_at p xs 0 (by simp at hj; omega) (by simpa [List.getD] using h1)
    rw [List.countP_cons_of_pos _ _ hx]
    omega
  | x :: xs, j + 1, hj, h0, h1 => by
    have := two_le_countP_at p xs j (by simp at hj; omega)
      (by simpa [List.getD] using h0) (by simpa [List.getD] using h1)
    rw [List.countP_cons]
    exact Nat.le_trans this (Nat.le_add_right _ _)

theorem three_le_countP_at (p : ℚ → Bool) :
    ∀ (w : List ℚ) (j : ℕ), j + 2 < w.length →
    p (w.getD j 0) = true → p (w.getD (j+1) 0) = true → p (w.getD (j+2) 0) = true →
    3 ≤ w.countP p
  | [], j, hj, _, _, _ => by simp at hj
  | x :: xs, 0, hj, h0, h1, h2 => by
    have hx : p x = true := by simpa [List.getD] using h0
    have := two_le_countP_at p xs 0 (by simp at hj; omega)
      (by simpa [List.getD] using h1) (by simpa [List.getD] using h2)
    rw [List.countP_cons_of_pos _ _ hx]
    omega
  | x :: xs, j + 1, hj, h0, h1, h2 => by
    have := three_le_countP_at p xs j (by simp at hj; omega)
      (by simpa [List.getD] using h0) (by simpa [List.getD] using h1)
      (by simpa [List.getD] using h2)
    rw [List.countP_cons]
    exact Nat.le_trans this (Nat.le_add_right _ _)

theorem four_le_countP_at (p : ℚ → Bool) :
    ∀ (w : List ℚ) (j : ℕ), j + 3 < w.length →
    p (w.getD j 0) = true → p (w.getD (j+1) 0) = true →
    p (w.getD (j+2) 0) = true → p (w.getD (j+3) 0) = true →
    4 ≤ w.countP p
  | [], j, hj, _, _, _, _ => by simp at hj
  | x :: xs, 0, hj, h0, h1, h2, h3 => by
    have hx : p x = true := by simpa [List.getD] using h0
    have := three_le_countP_at p xs 0 (by simp at hj; omega)
      (by simpa [List.getD] using h1) (by simpa [List.getD] using h2)
      (by simpa [List.getD] using h3)
    rw [List.countP_cons_of_pos _ _ hx]
    omega
  | x :: xs, j + 1, hj, h0, h1, h2, h3 => by
    have := four_le_countP_at p xs j (by simp at hj; omega)
      (by simpa [List.getD] using h0) (by simpa [List.getD] using h1)
      (by simpa [List.getD] using h2) (by simpa [List.getD] using h3)
    rw [List.countP_cons]
    exact Nat.le_trans this (Nat.le_add_right _ _)

/- ---------------------------------------------------------------- -/
/- Aligner and Aggregator lemmas                                    -/
/- ---------------------------------------------------------------- -/

theorem length_zeroBefore (l : List ℚ) (k : ℕ) : (zeroBefore l k).length = l.length := by
  simp [zeroBefore]
  omega

theorem getD_zeroBefore (l : List ℚ) (k j : ℕ) (hj : j < l.length) :
    (zeroBefore l k).getD j 0 = if j < k then 0 else l.getD j 0 := by
  rw [List.getD_eq_getElem _ _ ((length_zeroBefore l k) ▸ hj)]
  unfold zeroBefore
  by_cases hk : j < k
  · have hlt : j < (List.replicate (min k l.length) (0:ℚ)).length := by
      simp
      omega
    rw [List.getElem_append, dif_pos hlt, List.getElem_replicate, if_pos hk]
  · have hge : ¬ j < (List.replicate (min k l.length) (0:ℚ)).length := by
      simp
      omega
    have hmin : min k l.length = k := by omega
    rw [List.getElem_append, dif_neg hge, if_neg hk]
    have h2 : j - (List.replicate (min k l.length) (0:ℚ)).length = j - k := by
      simp [hmin]
    rw [List.getD_eq_getElem _ _ hj]
    simp only [h2]
    rw [List.getElem_drop]
    congr 1
    omega

theorem length_zeroFrom (l : List ℚ) (k : ℕ) : (zeroFrom l k).length = l.length := by
  simp [zeroFrom]
  omega

theorem getD_zeroFrom (l : List ℚ) (k j : ℕ) (hj : j < l.length) :
    (zeroFrom l k).getD j 0 = if k ≤ j then 0 else l.getD j 0 := by
  rw [List.getD_eq_getElem _ _ ((length_zeroFrom l k) ▸ hj)]
  unfold zeroFrom
  by_cases hk : k ≤ j
  · have hge : ¬ j < (l.take k).length := by
      simp only [List.length_take]
      omega
    rw [List.getElem_append, dif_neg hge, List.getElem_replicate, if_pos hk]
  · have hlt : j < (l.take k).length := by
      simp only [List.length_take]
      omega
    rw [List.getElem_append, dif_pos hlt, List.getElem_take, if_neg hk,
        List.getD_eq_getElem _ _ hj]

theorem length_truncateOne (l : List ℚ) (li ri : ℕ) :
    (truncateOne l li ri).length = l.length := by
  rw [truncateOne, length_zeroFrom, length_zeroBefore]

theorem getD_truncateOne (l : List ℚ) (li ri j : ℕ) (hj : j < l.length) :
    (truncateOne l li ri).getD j 0 = if j < li ∨ ri ≤ j then 0 else l.getD j 0 := by
  rw [truncateOne, getD_zeroFrom _ _ _ ((length_zeroBefore l li) ▸ hj),
      getD_zeroBefore _ _ _ hj]
  by_cases h1 : ri ≤ j
  · simp [h1]
  · by_cases h2 : j < li <;> simp [h1, h2]

theorem sumFold_spec :
    ∀ (dfgs : List Trace) (acc : List ℚ), acc.length = 853 →
      (∀ d ∈ dfgs, d.counts.length = 853) →
      (dfgs.foldl (fun a d => a.zipWith (fun x y => x + y) d.counts) acc).length = 853 ∧
      ∀ j, j < 853 →
        (dfgs.foldl (fun a d => a.zipWith (fun x y => x + y) d.counts) acc).getD j 0 =
          acc.getD j 0 + (dfgs.map (fun d => d.counts.getD j 0)).sum
  | [], acc, ha, _ => ⟨ha, by simp⟩
  | d :: rest, acc, ha, hd => by
    have hdl : d.counts.length = 853 := hd d (by simp)
    have hzl : (acc.zipWith (fun x y => x + y) d.counts).length = 853 := by
      simp [List.length_zipWith, ha, hdl]
    have ih := sumFold_spec rest (acc.zipWith (fun x y => x + y) d.counts) hzl
      (fun x hx => hd x (by simp [hx]))
    refine ⟨ih.1, fun j hj => ?_⟩
    rw [List.foldl_cons, ih.2 j hj]
    have hz : (acc.zipWith (fun x y => x + y) d.counts).getD j 0 =
        acc.getD j 0 + d.counts.getD j 0 := by
      rw [List.getD_eq_getElem _ _ (by omega : j < (acc.zipWith (fun x y => x + y) d.counts).length),
          List.getElem_zipWith, ← List.getD_eq_getElem acc 0 (by omega),
          ← List.getD_eq_getElem d.counts 0 (by omega)]
    rw [hz, List.map_cons, List.sum_cons]
    ring

theorem sumCounts_spec (dfgs : List Trace) (h : ∀ d ∈ dfgs, d.counts.length = 853) :
    (sumCounts dfgs).length = 853 ∧
    ∀ j, j < 853 → (sumCounts dfgs).getD j 0 = (dfgs.map (fun d => d.counts.getD j 0)).sum := by
  have := sumFold_spec dfgs (List.replicate 853 0) (by rw [List.length_replicate]) h
  refine ⟨this.1, fun j hj => ?_⟩
  rw [sumCounts, this.2 j hj,
      List.getD_eq_getElem _ _ (by rw [List.length_replicate]; omega),
      List.getElem_replicate]
  ring

/- ---------------------------------------------------------------- -/
/- Claim theorems: C8, C10, C7, C1                                  -/
/- ---------------------------------------------------------------- -/

/-- C8: every entry of the hardcoded padding table satisfies
`leftPad + 444 + rightPad = 853`, and consequently a sample trace with 444
counts whose detector key is present pads to `leftPad` zeros, the original
counts, `rightPad` zeros, of total length exactly 853. -/
theorem padding_table_sums_and_length :
    (∀ k l r, padding k = some (l, r) → l + 444 + r = 853) ∧
    (∀ (dfg : Trace) (l r : ℕ), dfg.counts.length = 444 → padding (padKey dfg) = some (l, r) →
      padOne dfg = some { dfg with counts := List.replicate l 0 ++ dfg.counts ++ List.replicate r 0 } ∧
      (List.replicate l (0:ℚ) ++ dfg.counts ++ List.replicate r 0).length = 853) := by
  have h1 : ∀ k l r, padding k = some (l, r) → l + 444 + r = 853 := by
    intro k l r h
    unfold padding at h
    split_ifs at h <;> simp_all <;> omega
  refine ⟨h1, fun dfg l r hc hp => ⟨?_, ?_⟩⟩
  · rw [padOne, hp]
  · have := h1 _ _ _ hp
    simp [List.length_append, hc]
    omega

/-- Witness for C8 at a concrete 444-point trace keyed det620. -/
theorem padding_table_sums_and_length_witness :
    (⟨"620", [], [620], List.replicate 444 0⟩ : Trace).counts.length = 444 ∧
    padding (padKey ⟨"620", [], [620], List.replicate 444 0⟩) = some (0, 409) ∧
    (padOne ⟨"620", [], [620], List.replicate 444 0⟩ =
      some { (⟨"620", [], [620], List.replicate 444 0⟩ : Trace) with
        counts := List.replicate 0 0 ++ (⟨"620", [], [620], List.replicate 444 0⟩ : Trace).counts ++
          List.replicate 409 0 } ∧
     (List.replicate 0 (0:ℚ) ++ (⟨"620", [], [620], List.replicate 444 0⟩ : Trace).counts ++
       List.replicate 409 0).length = 853) :=
  ⟨List.length_replicate 444 0, by with_unfolding_all decide,
   padding_table_sums_and_length.2 ⟨"620", [], [620], List.replicate 444 0⟩ 0 409
     (List.length_replicate 444 0) (by with_unfolding_all decide)⟩

/-- C10: smoothing overwrites the padded collection in place after storing
the deep copy as the pre-smoothed snapshot, so the padded collection then
holds the smoothed counts, summing the collection after smoothing yields
the elementwise sum of the smoothed arrays, and the unsmoothed padded
counts survive only in the pre-smoothed snapshot field. -/
theorem smooth_then_sum_frame_effect (g : List ℚ → List ℚ) (s : SpectrumSt)
    (hlen : ∀ d ∈ s.dfgsFull, (g d.counts).length = 853) :
    (smoothDFGs g s).dfgsFull = s.dfgsFull.map (fun d => { d with counts := g d.counts }) ∧
    (smoothDFGs g s).dfgsPreSmoothed = some s.dfgsFull ∧
    ∃ X, (sumFullDFGs (smoothDFGs g s)).dfgSum = some X ∧ X.length = 853 ∧
      ∀ j, j < 853 → X.getD j 0 = (s.dfgsFull.map (fun d => (g d.counts).getD j 0)).sum := by
  refine ⟨rfl, rfl, sumCounts ((smoothDFGs g s).dfgsFull), rfl, ?_, ?_⟩
  · exact (sumCounts_spec _ (by
      intro d hd
      rcases List.mem_map.mp hd with ⟨d0, hd0, rfl⟩
      exact hlen d0 hd0)).1
  · intro j hj
    have := (sumCounts_spec ((smoothDFGs g s).dfgsFull) (by
      intro d hd
      rcases List.mem_map.mp hd with ⟨d0, hd0, rfl⟩
      exact hlen d0 hd0)).2 j hj
    rw [this]
    show (List.map (fun d => d.counts.getD j 0)
        (s.dfgsFull.map (fun d => { d with counts := g d.counts }))).sum = _
    rw [List.map_map]
    rfl

/-- Witness for C10 with the identity filter on one 853-point trace. -/
theorem smooth_then_sum_frame_effect_witness :
    (∀ d ∈ (⟨[⟨"620", [], [620], List.replicate 853 0⟩], none, none⟩ : SpectrumSt).dfgsFull,
      (id d.counts).length = 853) ∧
    ((smoothDFGs id ⟨[⟨"620", [], [620], List.replicate 853 0⟩], none, none⟩).dfgsFull =
        ([(⟨"620", [], [620], List.replicate 853 0⟩ : Trace)]).map
          (fun d => { d with counts := id d.counts }) ∧
     (smoothDFGs id ⟨[⟨"620", [], [620], List.replicate 853 0⟩], none, none⟩).dfgsPreSmoothed =
        some [⟨"620", [], [620], List.replicate 853 0⟩] ∧
     ∃ X, (sumFullDFGs (smoothDFGs id
            ⟨[⟨"620", [], [620], List.replicate 853 0⟩], none, none⟩)).dfgSum = some X ∧
       X.length = 853 ∧
       ∀ j, j < 853 → X.getD j 0 =
         (([(⟨"620", [], [620], List.replicate 853 0⟩ : Trace)]).map
            (fun d => (id d.counts).getD j 0)).sum) :=
  ⟨by intro d hd; simp only [List.mem_singleton] at hd; subst hd
      rw [id, List.length_replicate],
   smooth_then_sum_frame_effect id ⟨[⟨"620", [], [620], List.replicate 853 0⟩], none, none⟩
     (by intro d hd; simp only [List.mem_singleton] at hd; subst hd
         rw [id, List.length_replicate])⟩

/-- C7: applying truncation produces a new collection in which the i-th
counts are zero at every position outside the positionally matched interval
and unchanged inside it; name and length are preserved (the padded input
collection is deep-copied by the code, and in this functional embedding is
untouched by construction). -/
theorem truncate_zero_outside (dfgsFull : List Trace) (inds : List (ℕ × ℕ))
    (hlen : inds.length = dfgsFull.length) :
    ∃ out, truncateFullDFGs dfgsFull inds = some out ∧ out.length = dfgsFull.length ∧
      ∀ i, i < dfgsFull.length →
        (out.getD i default).name = (dfgsFull.getD i default).name ∧
        (out.getD i default).counts.length = (dfgsFull.getD i default).counts.length ∧
        ∀ j, j < (dfgsFull.getD i default).counts.length →
          (out.getD i default).counts.getD j 0 =
            if j < (inds.getD i (0, 0)).1 ∨ (inds.getD i (0, 0)).2 ≤ j then 0
            else (dfgsFull.getD i default).counts.getD j 0 := by
  have hzl : (dfgsFull.zip inds).length = dfgsFull.length := by
    rw [List.length_zip, hlen]
    omega
  have hml : ((dfgsFull.zip inds).map
      (fun p => { p.1 with counts := truncateOne p.1.counts p.2.1 p.2.2 })).length
        = dfgsFull.length := by
    rw [List.length_map, hzl]
  refine ⟨_, by rw [truncateFullDFGs, if_pos (le_of_eq hlen.symm)], hml, fun i hi => ?_⟩
  have hiz : i < (dfgsFull.zip inds).length := by omega
  have hout : (((dfgsFull.zip inds).map
      (fun p => { p.1 with counts := truncateOne p.1.counts p.2.1 p.2.2 })).getD i default)
        = { (dfgsFull.getD i default) with
            counts := truncateOne (dfgsFull.getD i default).counts
              (inds.getD i (0, 0)).1 (inds.getD i (0, 0)).2 } := by
    rw [List.getD_eq_getElem _ _ (by omega : i < _), List.getElem_map, List.getElem_zip,
        List.getD_eq_getElem _ _ hi, List.getD_eq_getElem _ _ (by omega : i < inds.length)]
  rw [hout]
  exact ⟨rfl, length_truncateOne _ _ _, fun j hj => getD_truncateOne _ _ _ _ hj⟩

/-- Witness for C7 on a four-point trace truncated to positions 1 and 2. -/
theorem truncate_zero_outside_witness :
    ([((1 : ℕ), (3 : ℕ))] : List (ℕ × ℕ)).length =
      [(⟨"620", [], [620], [5, 6, 7, 8]⟩ : Trace)].length ∧
    (∃ out, truncateFullDFGs [(⟨"620", [], [620], [5, 6, 7, 8]⟩ : Trace)] [(1, 3)] = some out ∧
      out.length = [(⟨"620", [], [620], [5, 6, 7, 8]⟩ : Trace)].length ∧
      ∀ i, i < [(⟨"620", [], [620], [5, 6, 7, 8]⟩ : Trace)].length →
        (out.getD i default).name =
          ([(⟨"620", [], [620], [5, 6, 7, 8]⟩ : Trace)].getD i default).name ∧
        (out.getD i default).counts.length =
          ([(⟨"620", [], [620], [5, 6, 7, 8]⟩ : Trace)].getD i default).counts.length ∧
        ∀ j, j < ([(⟨"620", [], [620], [5, 6, 7, 8]⟩ : Trace)].getD i default).counts.length →
          (out.getD i default).counts.getD j 0 =
            if j < (([((1 : ℕ), (3 : ℕ))] : List (ℕ × ℕ)).getD i (0, 0)).1 ∨
               (([((1 : ℕ), (3 : ℕ))] : List (ℕ × ℕ)).getD i (0, 0)).2 ≤ j then 0
            else ([(⟨"620", [], [620], [5, 6, 7, 8]⟩ : Trace)].getD i default).counts.getD j 0) ∧
    truncateFullDFGs [(⟨"620", [], [620], [5, 6, 7, 8]⟩ : Trace)] [(1, 3)] =
      some [⟨"620", [], [620], [0, 6, 7, 0]⟩] :=
  ⟨rfl, truncate_zero_outside [⟨"620", [], [620], [5, 6, 7, 8]⟩] [(1, 3)] rfl,
   by with_unfolding_all decide⟩

/-- C1 (amended): the detector key the code uses, both to match backgrounds
and to build the padding-table lookup key, is `int(np.median(wl))`: the
median wavelength truncated toward zero (its floor for the nonnegative
medians of real wavelength data), not the median rounded to the nearest
integer. -/
theorem detectorKey_is_truncated_median (dfg bg : Trace) (h : 0 ≤ npMedian dfg.wl) :
    detectorKeyCode dfg.wl = ⌊npMedian dfg.wl⌋ ∧
    padKey dfg = "det" ++ toString (detectorKeyCode dfg.wl) ∧
    ((applyBGs (detectorKeyCode dfg.wl) [bg] dfg.counts).2 = true ↔
      detectorKeyCode bg.wl = detectorKeyCode dfg.wl) := by
  refine ⟨?_, rfl, ?_⟩
  · rw [detectorKeyCode, pyInt, if_pos h]
  · constructor
    · intro hap
      by_contra hne
      simp [applyBGs, hne] at hap
    · intro he
      simp [applyBGs, he]

/-- Witness for the amended C1 at concrete traces. -/
theorem detectorKey_is_truncated_median_witness :
    0 ≤ npMedian (⟨"620", [], [620], []⟩ : Trace).wl ∧
    (detectorKeyCode (⟨"620", [], [620], []⟩ : Trace).wl =
        ⌊npMedian (⟨"620", [], [620], []⟩ : Trace).wl⌋ ∧
     padKey ⟨"620", [], [620], []⟩ =
        "det" ++ toString (detectorKeyCode (⟨"620", [], [620], []⟩ : Trace).wl) ∧
     ((applyBGs (detectorKeyCode (⟨"620", [], [620], []⟩ : Trace).wl)
         [⟨"620bg", [], [620], []⟩] (⟨"620", [], [620], []⟩ : Trace).counts).2 = true ↔
       detectorKeyCode (⟨"620bg", [], [620], []⟩ : Trace).wl =
         detectorKeyCode (⟨"620", [], [620], []⟩ : Trace).wl)) :=
  ⟨by with_unfolding_all decide,
   detectorKey_is_truncated_median ⟨"620", [], [620], []⟩ ⟨"620bg", [], [620], []⟩
     (by with_unfolding_all decide)⟩

/-- C1 as stated is false: for a trace of median wavelength 620.6 the
detector key the code uses is `int(620.6) = 620`, not
`round(620.6) = 621`; in particular a background whose rounded median
equals the rounded median of the sample (both 621) is nevertheless not
matched, the sample stays unchanged and is logged as unmatched. -/
theorem detectorKey_round_counterexample :
    detectorKeyCode [(3103 : ℚ)/5] ≠ pyRound (npMedian [(3103 : ℚ)/5]) ∧
    pyRound (npMedian [(3103 : ℚ)/5]) = pyRound (npMedian [(621 : ℚ)]) ∧
    (subtractBGs [⟨"620", [], [(3103 : ℚ)/5], [10]⟩] [⟨"620bg", [], [(621 : ℚ)], [3]⟩]).1 =
      [⟨"620", [], [(3103 : ℚ)/5], [10]⟩] ∧
    (subtractBGs [⟨"620", [], [(3103 : ℚ)/5], [10]⟩] [⟨"620bg", [], [(621 : ℚ)], [3]⟩]).2 =
      ["620"] := by
  refine ⟨?_, ?_, ?_, ?_⟩
  · with_unfolding_all decide
  · with_unfolding_all decide
  · with_unfolding_all rfl
  · with_unfolding_all rfl

/- ---------------------------------------------------------------- -/
/- BackgroundMatcher lemmas and claim C6                            -/
/- ---------------------------------------------------------------- -/

theorem applyBGs_found (key : ℤ) :
    ∀ (bgs : List Trace) (c : List ℚ),
      (applyBGs key bgs c).2 = bgs.any (fun bg => decide (detectorKeyCode bg.wl = key))
  | [], _ => rfl
  | bg :: rest, c => by
    by_cases h : detectorKeyCode bg.wl = key
    · simp [applyBGs, h]
    · simp [applyBGs, h, applyBGs_found key rest c]

theorem applyBGs_unmatched (key : ℤ) :
    ∀ (bgs : List Trace) (c : List ℚ),
      (∀ bg ∈ bgs, detectorKeyCode bg.wl ≠ key) → (applyBGs key bgs c).1 = c
  | [], _, _ => rfl
  | bg :: rest, c, h => by
    have hbg : detectorKeyCode bg.wl ≠ key := h bg (by simp)
    have := applyBGs_unmatched key rest c (fun b hb => h b (by simp [hb]))
    simp [applyBGs, hbg, this]

theorem applyBGs_counts (key : ℤ) :
    ∀ (bgs : List Trace) (c : List ℚ),
      (∀ bg ∈ bgs, detectorKeyCode bg.wl = key → bg.counts.length = c.length) →
      (applyBGs key bgs c).1.length = c.length ∧
      ∀ j, j < c.length →
        (applyBGs key bgs c).1.getD j 0 =
          c.getD j 0 - ((bgs.filter (fun bg => decide (detectorKeyCode bg.wl = key))).map
            (fun bg => bg.counts.getD j 0)).sum
  | [], c, _ => ⟨rfl, fun j _ => by simp [applyBGs]⟩
  | bg :: rest, c, h => by
    by_cases hm : detectorKeyCode bg.wl = key
    · have hb : bg.counts.length = c.length := h bg (by simp) hm
      have hz : (c.zipWith (fun a b => a - b) bg.counts).length = c.length := by
        simp [List.length_zipWith, hb]
      have ih := applyBGs_counts key rest (c.zipWith (fun a b => a - b) bg.counts)
        (fun b hbm hk => by rw [hz]; exact h b (by simp [hbm]) hk)
      have hdef : applyBGs key (bg :: rest) c =
          ((applyBGs key rest (c.zipWith (fun a b => a - b) bg.counts)).1, true) := by
        simp [applyBGs, hm]
      rw [hdef]
      refine ⟨by rw [ih.1, hz], fun j hj => ?_⟩
      have hzj : (c.zipWith (fun a b => a - b) bg.counts).getD j 0 =
          c.getD j 0 - bg.counts.getD j 0 := by
        rw [List.getD_eq_getElem _ _ (by omega : j < (c.zipWith (fun a b => a - b) bg.counts).length),
            List.getElem_zipWith, ← List.getD_eq_getElem c 0 (by omega),
            ← List.getD_eq_getElem bg.counts 0 (by omega)]
      rw [ih.2 j (by omega), hzj, List.filter_cons_of_pos (by simp [hm]), List.map_cons,
          List.sum_cons]
      ring
    · have ih := applyBGs_counts key rest c (fun b hbm hk => h b (by simp [hbm]) hk)
      have hdef : applyBGs key (bg :: rest) c = applyBGs key rest c := by
        simp [applyBGs, hm]
      rw [hdef, List.filter_cons_of_neg (by simp [hm])]
      exact ih

/-- C6: background subtraction subtracts elementwise, in sequence, every
background whose detector key equals the sample key (so k matches decrease
the sample by their elementwise sum), and a sample with no matching
background is left completely unchanged while its name is reported in the
diagnostic log; the run does not abort. -/
theorem subtractBGs_match_and_log (dfgs bgs : List Trace) (i : ℕ) (hi : i < dfgs.length)
    (dfg : Trace) (hdfg : dfgs.getD i default = dfg) (bgMatches : List Trace)
    (hmatch : bgs.filter (fun bg => decide (detectorKeyCode bg.wl = detectorKeyCode dfg.wl)) =
      bgMatches) :
    (subtractBGs dfgs bgs).1.length = dfgs.length ∧
    (bgMatches = [] → (subtractBGs dfgs bgs).1.getD i default = dfg ∧
      dfg.name ∈ (subtractBGs dfgs bgs).2) ∧
    ((∀ bg ∈ bgMatches, bg.counts.length = dfg.counts.length) →
      ((subtractBGs dfgs bgs).1.getD i default).name = dfg.name ∧
      ((subtractBGs dfgs bgs).1.getD i default).counts.length = dfg.counts.length ∧
      ∀ j, j < dfg.counts.length →
        ((subtractBGs dfgs bgs).1.getD i default).counts.getD j 0 =
          dfg.counts.getD j 0 - (bgMatches.map (fun bg => bg.counts.getD j 0)).sum) := by
  have hgi : (subtractBGs dfgs bgs).1.getD i default = (subtractOne bgs dfg).1 := by
    rw [subtractBGs]
    rw [List.getD_eq_getElem _ _ (by simpa using hi), List.getElem_map,
        ← List.getD_eq_getElem dfgs default hi, hdfg]
  refine ⟨by simp [subtractBGs], fun hempty => ?_, fun hlen => ?_⟩
  · have hnone : ∀ bg ∈ bgs, detectorKeyCode bg.wl ≠ detectorKeyCode dfg.wl := by
      intro bg hbg
      have := List.filter_eq_nil_iff.mp (hmatch.trans hempty) bg hbg
      simpa using this
    have hc : (applyBGs (detectorKeyCode dfg.wl) bgs dfg.counts).1 = dfg.counts :=
      applyBGs_unmatched _ bgs dfg.counts hnone
    have hfound : (applyBGs (detectorKeyCode dfg.wl) bgs dfg.counts).2 = false := by
      rw [applyBGs_found]
      rw [List.any_eq_false]
      intro bg hbg
      simp [hnone bg hbg]
    constructor
    · rw [hgi, subtractOne, hc]
    · have hmem : dfg ∈ dfgs := by
        rw [← hdfg, List.getD_eq_getElem dfgs default hi]
        exact List.getElem_mem hi
      rw [subtractBGs]
      refine List.mem_map.mpr ⟨dfg, List.mem_filter.mpr ⟨hmem, ?_⟩, rfl⟩
      rw [subtractOne]
      simp [hfound]
  · have hlens : ∀ bg ∈ bgs, detectorKeyCode bg.wl = detectorKeyCode dfg.wl →
        bg.counts.length = dfg.counts.length := by
      intro bg hbg hk
      exact hlen bg (by rw [← hmatch]; exact List.mem_filter.mpr ⟨hbg, by simp [hk]⟩)
    have hc := applyBGs_counts (detectorKeyCode dfg.wl) bgs dfg.counts hlens
    rw [hgi, subtractOne]
    exact ⟨rfl, hc.1, fun j hj => by rw [hc.2 j hj, hmatch]⟩

/-- Witness for C6: sample 620 is decreased by its matching background,
sample 630 has no match, stays unchanged and is logged. -/
theorem subtractBGs_match_and_log_witness :
    (1 < ([⟨"620", [], [620], [10, 20]⟩, ⟨"630", [], [630], [5]⟩] : List Trace).length) ∧
    ([⟨"620bg", [], [620], [1, 2]⟩] : List Trace).filter
      (fun bg => decide (detectorKeyCode bg.wl =
        detectorKeyCode (⟨"630", [], [630], [5]⟩ : Trace).wl)) = [] ∧
    ((subtractBGs [⟨"620", [], [620], [10, 20]⟩, ⟨"630", [], [630], [5]⟩]
        [⟨"620bg", [], [620], [1, 2]⟩]).1.length = 2 ∧
     ([] = ([] : List Trace) →
       (subtractBGs [⟨"620", [], [620], [10, 20]⟩, ⟨"630", [], [630], [5]⟩]
          [⟨"620bg", [], [620], [1, 2]⟩]).1.getD 1 default = ⟨"630", [], [630], [5]⟩ ∧
       (⟨"630", [], [630], [5]⟩ : Trace).name ∈
         (subtractBGs [⟨"620", [], [620], [10, 20]⟩, ⟨"630", [], [630], [5]⟩]
            [⟨"620bg", [], [620], [1, 2]⟩]).2)) ∧
    (subtractBGs [⟨"620", [], [620], [10, 20]⟩, ⟨"630", [], [630], [5]⟩]
       [⟨"620bg", [], [620], [1, 2]⟩]).1 =
      [⟨"620", [], [620], [9, 18]⟩, ⟨"630", [], [630], [5]⟩] ∧
    (subtractBGs [⟨"620", [], [620], [10, 20]⟩, ⟨"630", [], [630], [5]⟩]
       [⟨"620bg", [], [620], [1, 2]⟩]).2 = ["630"] := by
  have h := subtractBGs_match_and_log
    [⟨"620", [], [620], [10, 20]⟩, ⟨"630", [], [630], [5]⟩]
    [⟨"620bg", [], [620], [1, 2]⟩] 1 (by decide)
    ⟨"630", [], [630], [5]⟩ (by with_unfolding_all rfl)
    [] (by with_unfolding_all rfl)
  exact ⟨by decide, by with_unfolding_all rfl, ⟨h.1, fun _ => h.2.1 rfl⟩,
    by with_unfolding_all rfl, by with_unfolding_all rfl⟩

/- ---------------------------------------------------------------- -/
/- Argmax and argmin lemmas, claims C9 and C3                       -/
/- ---------------------------------------------------------------- -/

theorem foldl_max_ge_init : ∀ (l : List ℚ) (a : ℚ), a ≤ l.foldl max a
  | [], _ => le_refl _
  | x :: xs, a => le_trans (le_max_left a x) (foldl_max_ge_init xs (max a x))

theorem foldl_max_ge_elem :
    ∀ (l : List ℚ) (a : ℚ) (i : ℕ), i < l.length → l.getD i 0 ≤ l.foldl max a
  | [], _, i, hi => by simp at hi
  | x :: xs, a, 0, _ => by
    have h1 : x ≤ max a x := le_max_right a x
    exact le_trans (by simpa [List.getD] using h1) (foldl_max_ge_init xs (max a x))
  | x :: xs, a, i + 1, hi => by
    have := foldl_max_ge_elem xs (max a x) i (by simpa using Nat.lt_of_succ_lt_succ hi)
    simpa [List.getD] using this

theorem npMax_ge (l : List ℚ) (i : ℕ) (hi : i < l.length) : l.getD i 0 ≤ npMax l :=
  foldl_max_ge_elem l (l.getD 0 0) i hi

theorem argmaxFold_eq_zero (l : List ℚ) :
    ∀ (n : ℕ), (∀ i, i < n → ¬ (l.getD 0 0 < l.getD i 0)) →
      (List.range n).foldl (fun best i => if l.getD best 0 < l.getD i 0 then i else best) 0 = 0
  | 0, _ => rfl
  | n + 1, h => by
    rw [List.range_succ, List.foldl_append,
        argmaxFold_eq_zero l n (fun i hi => h i (by omega)),
        List.foldl_cons, List.foldl_nil, if_neg (h n (by omega))]

theorem npArgmax_eq_zero (l : List ℚ) (h : l.getD 0 0 = npMax l) : npArgmax l = 0 := by
  apply argmaxFold_eq_zero
  intro i hi
  rw [h]
  exact not_lt.mpr (npMax_ge l i hi)

theorem argmaxFold_bound (l : List ℚ) :
    ∀ (n : ℕ),
      (List.range n).foldl (fun best i => if l.getD best 0 < l.getD i 0 then i else best) 0 = 0 ∨
      (List.range n).foldl (fun best i => if l.getD best 0 < l.getD i 0 then i else best) 0 < n
  | 0 => Or.inl rfl
  | n + 1 => by
    rw [List.range_succ, List.foldl_append]
    rcases argmaxFold_bound l n with h | h <;> rw [List.foldl_cons, List.foldl_nil]
    · rw [h]
      split <;> omega
    · split <;> omega

theorem npArgmax_lt_length (l : List ℚ) (hl : l ≠ []) : npArgmax l < l.length := by
  have hpos : 0 < l.length := List.length_pos.mpr hl
  rcases argmaxFold_bound l l.length with h | h
  · rw [npArgmax, h]
    omega
  · exact h

theorem argminFold_spec (l : List ℚ) :
    ∀ (n : ℕ), n ≤ l.length →
      (((List.range n).foldl (fun best i => if l.getD i 0 < l.getD best 0 then i else best) 0 = 0
          ∧ n = 0) ∨
      ((List.range n).foldl (fun best i => if l.getD i 0 < l.getD best 0 then i else best) 0 < n ∧
       (∀ j, j < n →
         l.getD ((List.range n).foldl
           (fun best i => if l.getD i 0 < l.getD best 0 then i else best) 0) 0 ≤ l.getD j 0) ∧
       (∀ j, j < (List.range n).foldl
           (fun best i => if l.getD i 0 < l.getD best 0 then i else best) 0 →
         l.getD ((List.range n).foldl
           (fun best i => if l.getD i 0 < l.getD best 0 then i else best) 0) 0 < l.getD j 0)))
  | 0, _ => Or.inl ⟨rfl, rfl⟩
  | n + 1, hn => by
    right
    rw [List.range_succ, List.foldl_append, List.foldl_cons, List.foldl_nil]
    rcases argminFold_spec l n (by omega) with ⟨hb, hn0⟩ | ⟨hb, hle, hlt⟩
    · subst hn0
      rw [hb]
      simp only [List.getD]
      constructor
      · split <;> omega
      constructor
      · intro j hj
        have hj0 : j = 0 := by omega
        subst hj0
        split <;> exact le_refl _
      · intro j hj
        split at hj <;> omega
    · by_cases hcmp : l.getD n 0 < l.getD ((List.range n).foldl
          (fun best i => if l.getD i 0 < l.getD best 0 then i else best) 0) 0
      · rw [if_pos hcmp]
        refine ⟨by omega, fun j hj => ?_, fun j hj => ?_⟩
        · rcases Nat.lt_succ_iff_lt_or_eq.mp hj with hj' | hj'
          · exact le_trans (le_of_lt hcmp) (hle j hj')
          · subst hj'
            exact le_refl _
        · exact lt_of_lt_of_le hcmp (hle j (by omega))
      · rw [if_neg hcmp]
        refine ⟨by omega, fun j hj => ?_, hlt⟩
        rcases Nat.lt_succ_iff_lt_or_eq.mp hj with hj' | hj'
        · exact hle j hj'
        · subst hj'
          exact not_lt.mp hcmp

theorem npArgmin_spec (l : List ℚ) (hl : l ≠ []) :
    npArgmin l < l.length ∧
    (∀ j, j < l.length → l.getD (npArgmin l) 0 ≤ l.getD j 0) ∧
    (∀ j, j < npArgmin l → l.getD (npArgmin l) 0 < l.getD j 0) := by
  have hpos : 0 < l.length := List.length_pos.mpr hl
  rcases argminFold_spec l l.length (le_refl _) with ⟨_, h0⟩ | h
  · omega
  · exact h

/-- C9: truncation-index discovery is total only when every reference trace
attains its maximum at a strictly positive index: a trace whose first point
already attains the maximum makes the left scan range empty and the
discovery raise instead of returning an index pair, and the whole
collection-level discovery then fails. -/
theorem findTruncate_fails_on_max_at_zero (counts : List ℚ) (f : ℚ) :
    (counts ≠ [] → counts.getD 0 0 = npMax counts → findTruncateOne counts f = none) ∧
    ((findTruncateOne counts f).isSome = true ↔ counts ≠ [] ∧ 0 < npArgmax counts) ∧
    (∀ (dfgs : List Trace) (dfg : Trace), dfg ∈ dfgs → dfg.counts ≠ [] →
      dfg.counts.getD 0 0 = npMax dfg.counts → findTruncateIndices dfgs f = none) := by
  have hone : ∀ (c : List ℚ), c ≠ [] → c.getD 0 0 = npMax c → findTruncateOne c f = none := by
    intro c hne hmax
    rw [findTruncateOne, if_neg (by simpa using List.length_pos.mpr hne |>.ne'),
        npArgmax_eq_zero c hmax]
    simp
  refine ⟨hone counts, ?_, ?_⟩
  · constructor
    · intro hsome
      by_cases hne : counts = []
      · subst hne
        simp [findTruncateOne] at hsome
      · refine ⟨hne, ?_⟩
        by_cases hz : npArgmax counts = 0
        · rw [findTruncateOne, if_neg (by simpa using List.length_pos.mpr hne |>.ne'), hz] at hsome
          simp at hsome
        · omega
    · rintro ⟨hne, hpos⟩
      rw [findTruncateOne, if_neg (by simpa using List.length_pos.mpr hne |>.ne'),
          if_neg (by omega)]
      rfl
  · intro dfgs dfg hmem hne hmax
    exact mapOption_eq_none_of_mem _ dfgs dfg hmem (hone dfg.counts hne hmax)

/-- Witness for C9 on a trace whose maximum sits at index 0. -/
theorem findTruncate_fails_on_max_at_zero_witness :
    ([5, 1, 2] : List ℚ) ≠ [] ∧
    ([5, 1, 2] : List ℚ).getD 0 0 = npMax [5, 1, 2] ∧
    findTruncateOne [5, 1, 2] (1/20) = none :=
  ⟨by decide, by with_unfolding_all decide,
   (findTruncate_fails_on_max_at_zero [5, 1, 2] (1/20)).1 (by decide)
     (by with_unfolding_all decide)⟩

/-- C3: on a reference trace whose (first) maximum sits at a positive index,
discovery returns the index left of the maximum whose value is numerically
closest to maxValue*threshold, smallest index on ties, and the index from
the maximum rightward closest to the same value, smallest on ties. -/
theorem findTruncate_closest (counts : List ℚ) (f : ℚ) (hne : counts ≠ [])
    (hpos : 0 < npArgmax counts) :
    ∃ L R, findTruncateOne counts f = some (L, R) ∧
      L < npArgmax counts ∧
      (∀ j, j < npArgmax counts →
        |counts.getD L 0 - npMax counts * f| ≤ |counts.getD j 0 - npMax counts * f|) ∧
      (∀ j, j < L →
        |counts.getD L 0 - npMax counts * f| < |counts.getD j 0 - npMax counts * f|) ∧
      npArgmax counts ≤ R ∧ R < counts.length ∧
      (∀ j, npArgmax counts ≤ j → j < counts.length →
        |counts.getD R 0 - npMax counts * f| ≤ |counts.getD j 0 - npMax counts * f|) ∧
      (∀ j, npArgmax counts ≤ j → j < R →
        |counts.getD R 0 - npMax counts * f| < |counts.getD j 0 - npMax counts * f|) := by
  have hlen : npArgmax counts < counts.length := npArgmax_lt_length counts hne
  have hdl : ((counts.take (npArgmax counts)).map
      (fun x => |x - npMax counts * f|)).length = npArgmax counts := by
    rw [List.length_map, List.length_take]
    omega
  have hdr : ((counts.drop (npArgmax counts)).map
      (fun x => |x - npMax counts * f|)).length = counts.length - npArgmax counts := by
    rw [List.length_map, List.length_drop]
  have hdlg : ∀ j, j < npArgmax counts →
      ((counts.take (npArgmax counts)).map (fun x => |x - npMax counts * f|)).getD j 0 =
        |counts.getD j 0 - npMax counts * f| := by
    intro j hj
    rw [List.getD_eq_getElem _ _ (by omega), List.getElem_map, List.getElem_take,
        List.getD_eq_getElem _ _ (by omega)]
  have hdrg : ∀ k, k < counts.length - npArgmax counts →
      ((counts.drop (npArgmax counts)).map (fun x => |x - npMax counts * f|)).getD k 0 =
        |counts.getD (npArgmax counts + k) 0 - npMax counts * f| := by
    intro k hk
    rw [List.getD_eq_getElem _ _ (by omega), List.getElem_map, List.getElem_drop,
        List.getD_eq_getElem _ _ (by omega)]
  have hdlne : (counts.take (npArgmax counts)).map (fun x => |x - npMax counts * f|) ≠ [] := by
    intro hcon
    have := congrArg List.length hcon
    rw [hdl] at this
    simp at this
    omega
  have hdrne : (counts.drop (npArgmax counts)).map (fun x => |x - npMax counts * f|) ≠ [] := by
    intro hcon
    have := congrArg List.length hcon
    rw [hdr] at this
    simp at this
    omega
  obtain ⟨hLlt, hLle, hLmin⟩ := npArgmin_spec _ hdlne
  obtain ⟨hRlt, hRle, hRmin⟩ := npArgmin_spec _ hdrne
  rw [hdl] at hLlt
  rw [hdr] at hRlt
  refine ⟨npArgmin ((counts.take (npArgmax counts)).map (fun x => |x - npMax counts * f|)),
    npArgmax counts +
      npArgmin ((counts.drop (npArgmax counts)).map (fun x => |x - npMax counts * f|)),
    ?_, hLlt, ?_, ?_, by omega, by omega, ?_, ?_⟩
  · rw [findTruncateOne, if_neg (by simpa using List.length_pos.mpr hne |>.ne'),
        if_neg (by omega)]
  · intro j hj
    have := hLle j (by omega)
    rwa [hdlg _ hLlt, hdlg _ hj] at this
  · intro j hj
    have := hLmin j hj
    rwa [hdlg _ hLlt, hdlg _ (by omega)] at this
  · intro j hj1 hj2
    have := hRle (j - npArgmax counts) (by omega)
    rw [hdrg _ (by omega), hdrg _ (by omega)] at this
    have hexp : npArgmax counts + (j - npArgmax counts) = j := by omega
    rwa [hexp] at this
  · intro j hj1 hj2
    have := hRmin (j - npArgmax counts) (by omega)
    rw [hdrg _ (by omega), hdrg _ (by omega)] at this
    have hexp : npArgmax counts + (j - npArgmax counts) = j := by omega
    rwa [hexp] at this

/-- Witness for C3 on the triangular ramp 0..100..0 of length 21 with
threshold 0.05: the maximum 100 sits at index 10, and on both flanks the
values closest to 5.0 are at indices 0 (tie between 0 and 10, smaller index
wins) and 19, which is what discovery returns. -/
theorem findTruncate_closest_witness :
    ([0, 10, 20, 30, 40, 50, 60, 70, 80, 90, 100,
      90, 80, 70, 60, 50, 40, 30, 20, 10, 0] : List ℚ) ≠ [] ∧
    0 < npArgmax [0, 10, 20, 30, 40, 50, 60, 70, 80, 90, 100,
      90, 80, 70, 60, 50, 40, 30, 20, 10, 0] ∧
    findTruncateOne ([0, 10, 20, 30, 40, 50, 60, 70, 80, 90, 100,
      90, 80, 70, 60, 50, 40, 30, 20, 10, 0] : List ℚ) (1/20) = some (0, 19) ∧
    (∃ L R, findTruncateOne ([0, 10, 20, 30, 40, 50, 60, 70, 80, 90, 100,
        90, 80, 70, 60, 50, 40, 30, 20, 10, 0] : List ℚ) (1/20) = some (L, R) ∧
      L < npArgmax [0, 10, 20, 30, 40, 50, 60, 70, 80, 90, 100,
        90, 80, 70, 60, 50, 40, 30, 20, 10, 0] ∧
      (∀ j, j < npArgmax [0, 10, 20, 30, 40, 50, 60, 70, 80, 90, 100,
          90, 80, 70, 60, 50, 40, 30, 20, 10, 0] →
        |([0, 10, 20, 30, 40, 50, 60, 70, 80, 90, 100,
            90, 80, 70, 60, 50, 40, 30, 20, 10, 0] : List ℚ).getD L 0 -
          npMax [0, 10, 20, 30, 40, 50, 60, 70, 80, 90, 100,
            90, 80, 70, 60, 50, 40, 30, 20, 10, 0] * (1/20)| ≤
        |([0, 10, 20, 30, 40, 50, 60, 70, 80, 90, 100,
            90, 80, 70, 60, 50, 40, 30, 20, 10, 0] : List ℚ).getD j 0 -
          npMax [0, 10, 20, 30, 40, 50, 60, 70, 80, 90, 100,
            90, 80, 70, 60, 50, 40, 30, 20, 10, 0] * (1/20)|) ∧
      (∀ j, j < L →
        |([0, 10, 20, 30, 40, 50, 60, 70, 80, 90, 100,
            90, 80, 70, 60, 50, 40, 30, 20, 10, 0] : List ℚ).getD L 0 -
          npMax [0, 10, 20, 30, 40, 50, 60, 70, 80, 90, 100,
            90, 80, 70, 60, 50, 40, 30, 20, 10, 0] * (1/20)| <
        |([0, 10, 20, 30, 40, 50, 60, 70, 80, 90, 100,
            90, 80, 70, 60, 50, 40, 30, 20, 10, 0] : List ℚ).getD j 0 -
          npMax [0, 10, 20, 30, 40, 50, 60, 70, 80, 90, 100,
            90, 80, 70, 60, 50, 40, 30, 20, 10, 0] * (1/20)|) ∧
      npArgmax [0, 10, 20, 30, 40, 50, 60, 70, 80, 90, 100,
        90, 80, 70, 60, 50, 40, 30, 20, 10, 0] ≤ R ∧
      R < ([0, 10, 20, 30, 40, 50, 60, 70, 80, 90, 100,
        90, 80, 70, 60, 50, 40, 30, 20, 10, 0] : List ℚ).length ∧
      (∀ j, npArgmax [0, 10, 20, 30, 40, 50, 60, 70, 80, 90, 100,
          90, 80, 70, 60, 50, 40, 30, 20, 10, 0] ≤ j →
        j < ([0, 10, 20, 30, 40, 50, 60, 70, 80, 90, 100,
          90, 80, 70, 60, 50, 40, 30, 20, 10, 0] : List ℚ).length →
        |([0, 10, 20, 30, 40, 50, 60, 70, 80, 90, 100,
            90, 80, 70, 60, 50, 40, 30, 20, 10, 0] : List ℚ).getD R 0 -
          npMax [0, 10, 20, 30, 40, 50, 60, 70, 80, 90, 100,
            90, 80, 70, 60, 50, 40, 30, 20, 10, 0] * (1/20)| ≤
        |([0, 10, 20, 30, 40, 50, 60, 70, 80, 90, 100,
            90, 80, 70, 60, 50, 40, 30, 20, 10, 0] : List ℚ).getD j 0 -
          npMax [0, 10, 20, 30, 40, 50, 60, 70, 80, 90, 100,
            90, 80, 70, 60, 50, 40, 30, 20, 10, 0] * (1/20)|) ∧
      (∀ j, npArgmax [0, 10, 20, 30, 40, 50, 60, 70, 80, 90, 100,
          90, 80, 70, 60, 50, 40, 30, 20, 10, 0] ≤ j → j < R →
        |([0, 10, 20, 30, 40, 50, 60, 70, 80, 90, 100,
            90, 80, 70, 60, 50, 40, 30, 20, 10, 0] : List ℚ).getD R 0 -
          npMax [0, 10, 20, 30, 40, 50, 60, 70, 80, 90, 100,
            90, 80, 70, 60, 50, 40, 30, 20, 10, 0] * (1/20)| <
        |([0, 10, 20, 30, 40, 50, 60, 70, 80, 90, 100,
            90, 80, 70, 60, 50, 40, 30, 20, 10, 0] : List ℚ).getD j 0 -
          npMax [0, 10, 20, 30, 40, 50, 60, 70, 80, 90, 100,
            90, 80, 70, 60, 50, 40, 30, 20, 10, 0] * (1/20)|)) :=
  ⟨by decide, by with_unfolding_all decide, by with_unfolding_all rfl,
   findTruncate_closest [0, 10, 20, 30, 40, 50, 60, 70, 80, 90, 100,
      90, 80, 70, 60, 50, 40, 30, 20, 10, 0] (1/20) (by decide)
     (by with_unfolding_all decide)⟩

/- ---------------------------------------------------------------- -/
/- Median pipeline lemmas and claim C5                              -/
/- ---------------------------------------------------------------- -/

theorem replaceEndStep_eq (m : List (Option ℚ)) (i : ℕ) :
    replaceEndStep m i =
      (m.set i (m.getD 3 none)).set (m.length - 1 - i)
        ((m.set i (m.getD 3 none)).getD (m.length - 4) none) := by
  simp [replaceEndStep, List.length_set]

theorem replaceEndStep_length (m : List (Option ℚ)) (i : ℕ) :
    (replaceEndStep m i).length = m.length := by
  rw [replaceEndStep_eq, List.length_set, List.length_set]

theorem replaceEndStep_getD (m : List (Option ℚ)) (i : ℕ) (h7 : 7 ≤ m.length) (hi : i < 3)
    (j : ℕ) :
    (replaceEndStep m i).getD j none =
      if j = m.length - 1 - i then m.getD (m.length - 4) none
      else if j = i then m.getD 3 none
      else m.getD j none := by
  rw [replaceEndStep_eq, getD_set_iff, getD_set_iff, getD_set_iff]
  have hr : ¬ (m.length - 4 = i ∧ m.length - 4 < m.length) := by omega
  rw [if_neg hr]
  by_cases h1 : j = m.length - 1 - i
  · rw [if_pos h1, if_pos (by refine ⟨h1, ?_⟩; rw [List.length_set]; omega)]
  · rw [if_neg h1,
        if_neg (by rw [List.length_set]; intro hc; exact h1 hc.1)]
    by_cases h2 : j = i
    · rw [if_pos h2, if_pos (by exact ⟨h2, by omega⟩)]
    · rw [if_neg h2, if_neg (by intro hc; exact h2 hc.1)]

theorem replaceEndStep_all_none (m : List (Option ℚ)) (i : ℕ)
    (h : ∀ j, m.getD j none = none) : ∀ j, (replaceEndStep m i).getD j none = none := by
  intro j
  rw [replaceEndStep_eq, getD_set_iff, getD_set_iff, getD_set_iff]
  split_ifs <;> exact h _

theorem rollingMedians_length (counts : List ℚ) :
    (rollingMedians counts).length = counts.length := by
  simp [rollingMedians]

theorem rollingMedians_getD (counts : List ℚ) (j : ℕ) :
    (rollingMedians counts).getD j none =
      if 3 ≤ j ∧ j + 3 < counts.length then
        some (npMedian ((counts.drop (j - 3)).take 7))
      else none := by
  rw [rollingMedians, getD_map_range]
  by_cases hj : j < counts.length
  · rw [if_pos hj]
  · rw [if_neg hj, if_neg (by omega)]

theorem despikeMedians_closed (counts : List ℚ) (h7 : 7 ≤ counts.length) :
    despikeMedians counts =
      some ((List.range counts.length).map
        (fun i => some (npMedian (windowAt counts (clampCenter counts.length i))))) := by
  have hrl : (rollingMedians counts).length = counts.length := rollingMedians_length counts
  rw [despikeMedians, replaceEndMedians, if_neg (by omega)]
  congr 1
  have hfold : (List.range 3).foldl replaceEndStep (rollingMedians counts) =
      replaceEndStep (replaceEndStep (replaceEndStep (rollingMedians counts) 0) 1) 2 := rfl
  have hl1 : (replaceEndStep (rollingMedians counts) 0).length = counts.length := by
    rw [replaceEndStep_length, hrl]
  have hl2 : (replaceEndStep (replaceEndStep (rollingMedians counts) 0) 1).length
      = counts.length := by
    rw [replaceEndStep_length, hl1]
  have hl3 : (replaceEndStep (replaceEndStep (replaceEndStep (rollingMedians counts) 0) 1)
      2).length = counts.length := by
    rw [replaceEndStep_length, hl2]
  have s1 := fun j => replaceEndStep_getD (rollingMedians counts) 0 (by omega) (by omega) j
  have s2 := fun j => replaceEndStep_getD (replaceEndStep (rollingMedians counts) 0) 1
    (by omega) (by omega) j
  have s3 := fun j => replaceEndStep_getD
    (replaceEndStep (replaceEndStep (rollingMedians counts) 0) 1) 2 (by omega) (by omega) j
  simp only [hrl] at s1
  simp only [hl1] at s2
  simp only [hl2] at s3
  have key : ∀ j, (replaceEndStep (replaceEndStep (replaceEndStep
      (rollingMedians counts) 0) 1) 2).getD j none =
      if j < counts.length then
        some (npMedian (windowAt counts (clampCenter counts.length j)))
      else none := by
    intro j
    have hA : (rollingMedians counts).getD 3 none =
        some (npMedian (windowAt counts 3)) := by
      rw [rollingMedians_getD, if_pos (by omega), windowAt]
    have hB : (rollingMedians counts).getD (counts.length - 4) none =
        some (npMedian (windowAt counts (counts.length - 4))) := by
      rw [rollingMedians_getD, if_pos (by omega), windowAt]
    by_cases hj0 : j < 3
    · have hcl : clampCenter counts.length j = 3 := by
        unfold clampCenter
        omega
      rw [hcl]
      interval_cases j
      · rw [s3 0, if_neg (by omega), if_neg (by omega), s2 0, if_neg (by omega),
            if_neg (by omega), s1 0, if_neg (by omega), if_pos rfl, hA, if_pos (by omega)]
      · rw [s3 1, if_neg (by omega), if_neg (by omega), s2 1, if_neg (by omega),
            if_pos rfl, s1 3, if_neg (by omega), if_neg (by omega), hA, if_pos (by omega)]
      · rw [s3 2, if_neg (by omega), if_pos rfl, s2 3, if_neg (by omega), if_neg (by omega),
            s1 3, if_neg (by omega), if_neg (by omega), hA, if_pos (by omega)]
    · by_cases hjm : j + 3 < counts.length
      · have hcl : clampCenter counts.length j = j := by
          unfold clampCenter
          omega
        rw [s3 j, if_neg (by omega), if_neg (by omega), s2 j, if_neg (by omega),
            if_neg (by omega), s1 j, if_neg (by omega), if_neg (by omega),
            rollingMedians_getD, if_pos (by omega), if_pos (by omega), hcl, windowAt]
      · by_cases hjN : j < counts.length
        · have hcl : clampCenter counts.length j = counts.length - 4 := by
            unfold clampCenter
            omega
          rw [hcl]
          have hj3 : j = counts.length - 3 ∨ j = counts.length - 2 ∨ j = counts.length - 1 := by
            omega
          rcases hj3 with hj | hj | hj <;> subst hj
          · rw [s3 (counts.length - 3), if_pos (by omega), s2 (counts.length - 4),
                if_neg (by omega), if_neg (by omega), s1 (counts.length - 4),
                if_neg (by omega), if_neg (by omega), hB, if_pos (by omega)]
          · rw [s3 (counts.length - 2), if_neg (by omega), if_neg (by omega),
                s2 (counts.length - 2), if_pos (by omega), s1 (counts.length - 4),
                if_neg (by omega), if_neg (by omega), hB, if_pos (by omega)]
          · rw [s3 (counts.length - 1), if_neg (by omega), if_neg (by omega),
                s2 (counts.length - 1), if_neg (by omega), if_neg (by omega),
                s1 (counts.length - 1), if_pos (by omega), hB, if_pos (by omega)]
        · rw [s3 j, if_neg (by omega), if_neg (by omega), s2 j, if_neg (by omega),
              if_neg (by omega), s1 j, if_neg (by omega), if_neg (by omega),
              rollingMedians_getD, if_neg (by omega), if_neg (by omega)]
  apply List.ext_getElem
  · rw [hfold, hl3, List.length_map, List.length_range]
  · intro n h1 h2
    have hn : n < counts.length := by
      rw [hfold, hl3] at h1
      exact h1
    rw [← List.getD_eq_getElem _ none h1, hfold, key n, if_pos hn, List.getElem_map,
        List.getElem_range]

/-- C5: for counts of length at least 7 the median array used for spike
residuals holds, at every centered position, the median of the full
7-point window, and at the first and last three positions the first and
last fully computed median replicated outward; no partial-window median
ever appears. -/
theorem despikeMedians_edge_replication (counts : List ℚ) (h7 : 7 ≤ counts.length) :
    ∃ ms, despikeMedians counts = some ms ∧ ms.length = counts.length ∧
      (∀ i, 3 ≤ i → i + 3 < counts.length →
        ms.getD i none = some (npMedian ((counts.drop (i - 3)).take 7))) ∧
      (∀ i, i < 3 → ms.getD i none = some (npMedian (counts.take 7))) ∧
      (∀ i, counts.length - 4 < i → i < counts.length →
        ms.getD i none = some (npMedian ((counts.drop (counts.length - 7)).take 7))) := by
  refine ⟨_, despikeMedians_closed counts h7, ?_, ?_, ?_, ?_⟩
  · rw [List.length_map, List.length_range]
  · intro i h3 hiN
    rw [getD_map_range, if_pos (by omega)]
    have hcl : clampCenter counts.length i = i := by
      unfold clampCenter
      omega
    rw [hcl, windowAt]
  · intro i hi
    rw [getD_map_range, if_pos (by omega)]
    have hcl : clampCenter counts.length i = 3 := by
      unfold clampCenter
      omega
    rw [hcl, windowAt]
    norm_num
  · intro i hgt hlt
    rw [getD_map_range, if_pos (by omega)]
    have hcl : clampCenter counts.length i = counts.length - 4 := by
      unfold clampCenter
      omega
    rw [hcl, windowAt]
    have h47 : counts.length - 4 - 3 = counts.length - 7 := by omega
    rw [h47]

/-- Witness for C5 on a concrete 7-point trace: every adjusted median is
the median 3 of the single full window. -/
theorem despikeMedians_edge_replication_witness :
    (7 ≤ ([3, 1, 4, 1, 5, 9, 2] : List ℚ).length) ∧
    despikeMedians ([3, 1, 4, 1, 5, 9, 2] : List ℚ) =
      some [some 3, some 3, some 3, some 3, some 3, some 3, some 3] ∧
    (∃ ms, despikeMedians ([3, 1, 4, 1, 5, 9, 2] : List ℚ) = some ms ∧
      ms.length = ([3, 1, 4, 1, 5, 9, 2] : List ℚ).length ∧
      (∀ i, 3 ≤ i → i + 3 < ([3, 1, 4, 1, 5, 9, 2] : List ℚ).length →
        ms.getD i none =
          some (npMedian ((([3, 1, 4, 1, 5, 9, 2] : List ℚ).drop (i - 3)).take 7))) ∧
      (∀ i, i < 3 →
        ms.getD i none = some (npMedian (([3, 1, 4, 1, 5, 9, 2] : List ℚ).take 7))) ∧
      (∀ i, ([3, 1, 4, 1, 5, 9, 2] : List ℚ).length - 4 < i →
        i < ([3, 1, 4, 1, 5, 9, 2] : List ℚ).length →
        ms.getD i none =
          some (npMedian ((([3, 1, 4, 1, 5, 9, 2] : List ℚ).drop
            (([3, 1, 4, 1, 5, 9, 2] : List ℚ).length - 7)).take 7)))) :=
  ⟨by decide, by with_unfolding_all rfl,
   despikeMedians_edge_replication [3, 1, 4, 1, 5, 9, 2] (by decide)⟩

/- ---------------------------------------------------------------- -/
/- Further median pipeline lemmas used by the despike equivalence   -/
/- ---------------------------------------------------------------- -/

theorem despikeMedians_none_iff (counts : List ℚ) :
    despikeMedians counts = none ↔ counts.length ≤ 3 := by
  rw [despikeMedians, replaceEndMedians, rollingMedians_length]
  by_cases h : counts.length ≤ 3 <;> simp [h]

theorem despikeMedians_length (counts : List ℚ) (ms : List (Option ℚ))
    (hms : despikeMedians counts = some ms) : ms.length = counts.length := by
  rw [despikeMedians, replaceEndMedians] at hms
  by_cases h : (rollingMedians counts).length ≤ 3
  · rw [if_pos h] at hms
    cases hms
  · rw [if_neg h] at hms
    have hfold : (List.range 3).foldl replaceEndStep (rollingMedians counts) =
        replaceEndStep (replaceEndStep (replaceEndStep (rollingMedians counts) 0) 1) 2 := rfl
    have := Option.some.inj hms
    rw [← this, hfold, replaceEndStep_length, replaceEndStep_length, replaceEndStep_length,
        rollingMedians_length]

theorem despikeMedians_small_all_none (counts : List ℚ) (ms : List (Option ℚ))
    (hms : despikeMedians counts = some ms) (hlt : counts.length < 7) :
    ∀ i, ms.getD i none = none := by
  have hrm : ∀ j, (rollingMedians counts).getD j none = none := by
    intro j
    rw [rollingMedians_getD, if_neg (by omega)]
  rw [despikeMedians, replaceEndMedians] at hms
  by_cases h : (rollingMedians counts).length ≤ 3
  · rw [if_pos h] at hms
    cases hms
  · rw [if_neg h] at hms
    have hfold : (List.range 3).foldl replaceEndStep (rollingMedians counts) =
        replaceEndStep (replaceEndStep (replaceEndStep (rollingMedians counts) 0) 1) 2 := rfl
    have := Option.some.inj hms
    rw [← this, hfold]
    exact replaceEndStep_all_none _ 2
      (replaceEndStep_all_none _ 1 (replaceEndStep_all_none _ 0 hrm))

theorem spikeOf_small (counts : List ℚ) (ms : List (Option ℚ)) (t : ℚ)
    (hms : despikeMedians counts = some ms) (hlt : counts.length < 7) :
    ∀ i, spikeOf counts ms t i = false := by
  intro i
  rw [spikeOf, despikeMedians_small_all_none counts ms hms hlt i]

theorem spikeOf_closed (counts : List ℚ) (ms : List (Option ℚ)) (t : ℚ)
    (hms : despikeMedians counts = some ms) (h7 : 7 ≤ counts.length) (i : ℕ) :
    spikeOf counts ms t i =
      if i < counts.length then
        decide (t < counts.getD i 0 -
          npMedian (windowAt counts (clampCenter counts.length i)))
      else false := by
  rw [despikeMedians_closed counts h7] at hms
  have hmsv := Option.some.inj hms
  rw [spikeOf, ← hmsv, getD_map_range]
  by_cases hi : i < counts.length
  · rw [if_pos hi, if_pos hi]
  · rw [if_neg hi, if_neg hi]

theorem spikeOf_lt_length (counts : List ℚ) (ms : List (Option ℚ)) (t : ℚ)
    (hms : despikeMedians counts = some ms) (i : ℕ) (h : spikeOf counts ms t i = true) :
    i < counts.length := by
  by_contra hge
  rw [spikeOf, List.getD_eq_default _ _ (by
    rw [despikeMedians_length counts ms hms]
    omega)] at h
  cases h

/- ---------------------------------------------------------------- -/
/- Median counting: a spike exceeds its window median               -/
/- ---------------------------------------------------------------- -/

theorem windowAt_length (counts : List ℚ) (c : ℕ) (h3 : 3 ≤ c) (hc : c + 3 < counts.length) :
    (windowAt counts c).length = 7 := by
  rw [windowAt, List.length_take, List.length_drop]
  omega

theorem windowAt_getD (counts : List ℚ) (c j : ℕ) (h3 : 3 ≤ c) (hc : c + 3 < counts.length)
    (hj : j < 7) :
    (windowAt counts c).getD j 0 = counts.getD (c - 3 + j) 0 := by
  have h1 : j < ((counts.drop (c - 3)).take 7).length := by
    rw [List.length_take, List.length_drop]
    omega
  rw [windowAt, List.getD_eq_getElem _ _ h1, List.getElem_take, List.getElem_drop,
      List.getD_eq_getElem _ _ (by omega)]

theorem npMedian_sorted (w : List ℚ) (h : w.length = 7) :
    npMedian w = (w.insertionSort (fun a b => a ≤ b)).getD 3 0 := by
  rw [npMedian, h]
  norm_num

theorem countP_le_median (w : List ℚ) (h : w.length = 7) :
    4 ≤ w.countP (fun x => decide (x ≤ npMedian w)) := by
  have hperm := List.perm_insertionSort (fun a b : ℚ => a ≤ b) w
  have hsorted := List.sorted_insertionSort (fun a b : ℚ => a ≤ b) w
  have hslen : (w.insertionSort (fun a b => a ≤ b)).length = 7 := by
    rw [List.length_insertionSort, h]
  have hle : ∀ k, k ≤ 3 → (w.insertionSort (fun a b => a ≤ b)).getD k 0 ≤ npMedian w := by
    intro k hk
    rw [npMedian_sorted w h, List.getD_eq_getElem _ _ (by omega),
        List.getD_eq_getElem _ _ (by omega)]
    have := hsorted.rel_get_of_le (a := ⟨k, by omega⟩) (b := ⟨3, by omega⟩)
      (by exact Fin.mk_le_mk.mpr hk)
    simpa using this
  have h4 := four_le_countP_at (fun x => decide (x ≤ npMedian w))
    (w.insertionSort (fun a b => a ≤ b)) 0 (by omega)
    (by simpa using hle 0 (by omega)) (by simpa using hle 1 (by omega))
    (by simpa using hle 2 (by omega)) (by simpa using hle 3 (by omega))
  rwa [List.Perm.countP_eq _ hperm] at h4

theorem countP_gt_median (w : List ℚ) (h : w.length = 7) :
    w.countP (fun x => decide (npMedian w < x)) ≤ 3 := by
  have hsum := List.length_eq_countP_add_countP
    (fun x => decide (x ≤ npMedian w)) w
  have hcongr : w.countP (fun x => decide ¬(decide (x ≤ npMedian w) = true)) =
      w.countP (fun x => decide (npMedian w < x)) := by
    apply List.countP_congr
    intro x _
    simp [not_le]
  rw [h, hcongr] at hsum
  have h4 := countP_le_median w h
  omega

/-- Core combinatorial fact of the despiker: with a nonnegative threshold
there can never be six consecutive spike indices, because the smallest of
the six would have to exceed the median of its own 7-point window while at
least four window slots hold values at least as large as it. -/
theorem no_six_consecutive_spikes (counts : List ℚ) (ms : List (Option ℚ)) (t : ℚ)
    (ht : 0 ≤ t) (hms : despikeMedians counts = some ms) (a : ℕ)
    (hsp : ∀ r, a ≤ r → r ≤ a + 5 → spikeOf counts ms t r = true) : False := by
  by_cases hsmall : counts.length < 7
  · have := spikeOf_small counts ms t hms hsmall a
    rw [hsp a (le_refl a) (by omega)] at this
    cases this
  push_neg at hsmall
  have hN : a + 5 < counts.length :=
    spikeOf_lt_length counts ms t hms (a + 5) (hsp (a + 5) (by omega) (le_refl _))
  have hspike : ∀ r, a ≤ r → r ≤ a + 5 →
      npMedian (windowAt counts (clampCenter counts.length r)) < counts.getD r 0 := by
    intro r h1 h2
    have hb := hsp r h1 h2
    rw [spikeOf_closed counts ms t hms hsmall r, if_pos (by omega)] at hb
    have hlt := of_decide_eq_true hb
    linarith
  obtain ⟨q, hqmem, hqmin⟩ := Finset.exists_min_image (Finset.Icc a (a + 5))
    (fun r => counts.getD r 0) ⟨a, by simp⟩
  rw [Finset.mem_Icc] at hqmem
  have hceq : clampCenter counts.length q = min (max q 3) (counts.length - 4) := rfl
  set c := clampCenter counts.length q with hcdef
  have hc3 : 3 ≤ c := by omega
  have hcN : c + 3 < counts.length := by omega
  have hwlen : (windowAt counts c).length = 7 := windowAt_length counts c hc3 hcN
  have hm : npMedian (windowAt counts c) < counts.getD q 0 := hspike q hqmem.1 hqmem.2
  obtain ⟨p0, hp0a, hp0b, hp0c, hp0d⟩ :
      ∃ p0, a ≤ p0 ∧ p0 + 3 ≤ a + 5 ∧ c - 3 ≤ p0 ∧ p0 ≤ c := by
    refine ⟨min (max a (c - 3)) (a + 2), by omega, by omega, by omega, by omega⟩
  have hval : ∀ k, k ≤ 3 →
      npMedian (windowAt counts c) < (windowAt counts c).getD (p0 - (c - 3) + k) 0 := by
    intro k hk
    rw [windowAt_getD counts c _ hc3 hcN (by omega)]
    have hidx : c - 3 + (p0 - (c - 3) + k) = p0 + k := by omega
    rw [hidx]
    have hge := hqmin (p0 + k) (Finset.mem_Icc.mpr ⟨by omega, by omega⟩)
    calc npMedian (windowAt counts c) < counts.getD q 0 := hm
      _ ≤ counts.getD (p0 + k) 0 := hge
  have h4gt : 4 ≤ (windowAt counts c).countP
      (fun x => decide (npMedian (windowAt counts c) < x)) := by
    refine four_le_countP_at _ _ (p0 - (c - 3)) (by omega) ?_ ?_ ?_ ?_
    · simpa using hval 0 (by omega)
    · simpa using hval 1 (by omega)
    · simpa using hval 2 (by omega)
    · simpa using hval 3 (by omega)
  have h3le := countP_gt_median (windowAt counts c) hwlen
  omega

/- ---------------------------------------------------------------- -/
/- Neighbor-scan lemmas                                             -/
/- ---------------------------------------------------------------- -/

theorem scanSide_congr (spike : ℕ → Bool) (c c' : List ℚ)
    (h : ∀ p, spike p = false → c.getD p 0 = c'.getD p 0) :
    ∀ ps, scanSide spike c ps = scanSide spike c' ps
  | [] => rfl
  | none :: _ => rfl
  | some p :: rest => by
    by_cases hp : spike p
    · simp only [scanSide, if_pos hp]
      exact scanSide_congr spike c c' h rest
    · simp only [scanSide, if_neg hp]
      rw [h p (by simpa using hp)]

theorem scanSide_unset_spec (spike : ℕ → Bool) (c : List ℚ) :
    ∀ ps, scanSide spike c ps = .unset →
      ∀ x ∈ ps, ∃ p, x = some p ∧ spike p = true
  | [], _, x, hx => absurd hx (by simp)
  | none :: _, h, _, _ => by simp [scanSide] at h
  | some p :: rest, h, x, hx => by
    by_cases hp : spike p
    · rcases List.mem_cons.mp hx with rfl | hx'
      · exact ⟨p, rfl, hp⟩
      · exact scanSide_unset_spec spike c rest (by simpa [scanSide, hp] using h) x hx'
    · simp [scanSide, hp] at h

theorem scanSide_edge_spec (spike : ℕ → Bool) (c : List ℚ) :
    ∀ ps, scanSide spike c ps = .edge →
      ∃ k, k < ps.length ∧ ps.getD k none = none ∧
        ∀ j, j < k → ∃ p, ps.getD j none = some p ∧ spike p = true
  | [], h => by simp [scanSide] at h
  | none :: rest, _ => ⟨0, by simp, rfl, fun j hj => absurd hj (by omega)⟩
  | some p :: rest, h => by
    by_cases hp : spike p
    · obtain ⟨k, hk1, hk2, hk3⟩ :=
        scanSide_edge_spec spike c rest (by simpa [scanSide, hp] using h)
      refine ⟨k + 1, by simpa using hk1, by simpa [List.getD] using hk2, fun j hj => ?_⟩
      cases j with
      | zero => exact ⟨p, rfl, hp⟩
      | succ j' =>
        obtain ⟨p', hp1, hp2⟩ := hk3 j' (by omega)
        exact ⟨p', by simpa [List.getD] using hp1, hp2⟩
    · simp [scanSide, hp] at h

theorem leftPositions_getD (i j : ℕ) :
    (leftPositions i).getD j none =
      if j < 5 then (if j + 1 ≤ i then some (i - 1 - j) else none) else none := by
  rw [leftPositions, getD_map_range]

theorem rightPositions_getD (N i j : ℕ) :
    (rightPositions N i).getD j none =
      if j < 5 then (if i + 1 + j < N then some (i + 1 + j) else none) else none := by
  rw [rightPositions, getD_map_range]

theorem left_unset_run (spike : ℕ → Bool) (c : List ℚ) (i : ℕ)
    (hu : scanSide spike c (leftPositions i) = .unset) :
    5 ≤ i ∧ ∀ k, 1 ≤ k → k ≤ 5 → spike (i - k) = true := by
  have hall := scanSide_unset_spec spike c _ hu
  have hsome : ∀ j, j < 5 → j + 1 ≤ i ∧ spike (i - 1 - j) = true := by
    intro j hj
    have hmem : (if j + 1 ≤ i then some (i - 1 - j) else none) ∈ leftPositions i := by
      rw [leftPositions]
      exact List.mem_map.mpr ⟨j, List.mem_range.mpr hj, rfl⟩
    obtain ⟨p, hp1, hp2⟩ := hall _ hmem
    by_cases hcond : j + 1 ≤ i
    · rw [if_pos hcond] at hp1
      exact ⟨hcond, by rwa [Option.some.inj hp1]⟩
    · rw [if_neg hcond] at hp1
      cases hp1
  refine ⟨by have := (hsome 4 (by omega)).1; omega, fun k h1 h5 => ?_⟩
  have hk := (hsome (k - 1) (by omega)).2
  have hidx : i - 1 - (k - 1) = i - k := by omega
  rwa [hidx] at hk

theorem right_unset_run (spike : ℕ → Bool) (c : List ℚ) (N i : ℕ)
    (hu : scanSide spike c (rightPositions N i) = .unset) :
    i + 5 < N ∧ ∀ k, 1 ≤ k → k ≤ 5 → spike (i + k) = true := by
  have hall := scanSide_unset_spec spike c _ hu
  have hsome : ∀ j, j < 5 → i + 1 + j < N ∧ spike (i + 1 + j) = true := by
    intro j hj
    have hmem : (if i + 1 + j < N then some (i + 1 + j) else none) ∈ rightPositions N i := by
      rw [rightPositions]
      exact List.mem_map.mpr ⟨j, List.mem_range.mpr hj, rfl⟩
    obtain ⟨p, hp1, hp2⟩ := hall _ hmem
    by_cases hcond : i + 1 + j < N
    · rw [if_pos hcond] at hp1
      exact ⟨hcond, by rwa [Option.some.inj hp1]⟩
    · rw [if_neg hcond] at hp1
      cases hp1
  refine ⟨by have := (hsome 4 (by omega)).1; omega, fun k h1 h5 => ?_⟩
  have hk := (hsome (k - 1) (by omega)).2
  have hidx : i + 1 + (k - 1) = i + k := by omega
  rwa [hidx] at hk

theorem left_edge_run (spike : ℕ → Bool) (c : List ℚ) (i : ℕ)
    (he : scanSide spike c (leftPositions i) = .edge) :
    i ≤ 4 ∧ ∀ p, p < i → spike p = true := by
  obtain ⟨k, hk1, hk2, hk3⟩ := scanSide_edge_spec spike c _ he
  have hk5 : k < 5 := by
    rw [leftPositions] at hk1
    simpa using hk1
  rw [leftPositions_getD, if_pos hk5] at hk2
  have hik : ¬ (k + 1 ≤ i) := by
    intro hcon
    rw [if_pos hcon] at hk2
    cases hk2
  refine ⟨by omega, fun p hp => ?_⟩
  obtain ⟨p', hp1, hp2⟩ := hk3 (i - 1 - p) (by omega)
  rw [leftPositions_getD, if_pos (by omega), if_pos (by omega)] at hp1
  have hpe : i - 1 - (i - 1 - p) = p := by omega
  rw [hpe] at hp1
  rwa [Option.some.inj hp1]

theorem right_edge_run (spike : ℕ → Bool) (c : List ℚ) (N i : ℕ)
    (he : scanSide spike c (rightPositions N i) = .edge) :
    N ≤ i + 5 ∧ ∀ p, i < p → p < N → spike p = true := by
  obtain ⟨k, hk1, hk2, hk3⟩ := scanSide_edge_spec spike c _ he
  have hk5 : k < 5 := by
    rw [rightPositions] at hk1
    simpa using hk1
  rw [rightPositions_getD, if_pos hk5] at hk2
  have hik : ¬ (i + 1 + k < N) := by
    intro hcon
    rw [if_pos hcon] at hk2
    cases hk2
  refine ⟨by omega, fun p hpl hpN => ?_⟩
  obtain ⟨p', hp1, hp2⟩ := hk3 (p - i - 1) (by omega)
  rw [rightPositions_getD, if_pos (by omega), if_pos (by omega)] at hp1
  have hpe : i + 1 + (p - i - 1) = p := by omega
  rw [hpe] at hp1
  rwa [Option.some.inj hp1]

/- ---------------------------------------------------------------- -/
/- Despike equivalence machinery                                    -/
/- ---------------------------------------------------------------- -/

theorem despike_scans_ok (counts : List ℚ) (ms : List (Option ℚ)) (t : ℚ) (ht : 0 ≤ t)
    (hms : despikeMedians counts = some ms) (i : ℕ)
    (hsp : spikeOf counts ms t i = true) :
    scanSide (spikeOf counts ms t) counts (leftPositions i) ≠ .unset ∧
    scanSide (spikeOf counts ms t) counts (rightPositions counts.length i) ≠ .unset ∧
    scanVals (scanSide (spikeOf counts ms t) counts (leftPositions i)) ++
      scanVals (scanSide (spikeOf counts ms t) counts
        (rightPositions counts.length i)) ≠ [] := by
  have hlu : scanSide (spikeOf counts ms t) counts (leftPositions i) ≠ .unset := by
    intro hu
    obtain ⟨h5, hrun⟩ := left_unset_run (spikeOf counts ms t) counts i hu
    apply no_six_consecutive_spikes counts ms t ht hms (i - 5)
    intro r h1 h2
    by_cases hr : r = i
    · rwa [hr]
    · have hk := hrun (i - r) (by omega) (by omega)
      have hidx : i - (i - r) = r := by omega
      rwa [hidx] at hk
  have hru : scanSide (spikeOf counts ms t) counts
      (rightPositions counts.length i) ≠ .unset := by
    intro hu
    obtain ⟨h5, hrun⟩ := right_unset_run (spikeOf counts ms t) counts counts.length i hu
    apply no_six_consecutive_spikes counts ms t ht hms i
    intro r h1 h2
    by_cases hr : r = i
    · rwa [hr]
    · have hk := hrun (r - i) (by omega) (by omega)
      have hidx : i + (r - i) = r := by omega
      rwa [hidx] at hk
  refine ⟨hlu, hru, ?_⟩
  intro hemp
  cases hl : scanSide (spikeOf counts ms t) counts (leftPositions i) with
  | found v =>
    rw [hl] at hemp
    simp [scanVals] at hemp
  | unset => exact hlu hl
  | edge =>
    cases hr : scanSide (spikeOf counts ms t) counts (rightPositions counts.length i) with
    | found v =>
      rw [hl, hr] at hemp
      simp [scanVals] at hemp
    | unset => exact hru hr
    | edge =>
      obtain ⟨hi4, hlo⟩ := left_edge_run (spikeOf counts ms t) counts i hl
      obtain ⟨hN5, hhi⟩ := right_edge_run (spikeOf counts ms t) counts counts.length i hr
      have h7 : 7 ≤ counts.length := by
        by_contra hs
        have := spikeOf_small counts ms t hms (by omega) i
        rw [hsp] at this
        cases this
      apply no_six_consecutive_spikes counts ms t ht hms 0
      intro r h0 h5
      rcases lt_trichotomy r i with h | h | h
      · exact hlo r h
      · rwa [h]
      · exact hhi r h (by omega)

theorem twoPassValue_defined (counts : List ℚ) (ms : List (Option ℚ)) (t : ℚ) (ht : 0 ≤ t)
    (hms : despikeMedians counts = some ms) (i : ℕ)
    (hsp : spikeOf counts ms t i = true) :
    twoPassValue counts (spikeOf counts ms t) counts.length i =
      some ((⌊(scanVals (scanSide (spikeOf counts ms t) counts (leftPositions i)) ++
          scanVals (scanSide (spikeOf counts ms t) counts
            (rightPositions counts.length i))).sum /
        ((scanVals (scanSide (spikeOf counts ms t) counts (leftPositions i)) ++
          scanVals (scanSide (spikeOf counts ms t) counts
            (rightPositions counts.length i))).length : ℚ)⌋ : ℤ) : ℚ) := by
  obtain ⟨_, _, hne⟩ := despike_scans_ok counts ms t ht hms i hsp
  rw [twoPassValue, if_neg (by simpa using hne)]

theorem despikeLoop_spec (counts : List ℚ) (ms : List (Option ℚ)) (t : ℚ) (ht : 0 ≤ t)
    (hms : despikeMedians counts = some ms) :
    ∀ (l : List ℕ) (st : DespikeSt),
      st.counts.length = counts.length →
      (∀ p, spikeOf counts ms t p = false → st.counts.getD p 0 = counts.getD p 0) →
      ∃ st2, despikeLoop (spikeOf counts ms t) counts.length l st = some st2 ∧
        st2.counts.length = counts.length ∧
        (∀ p, spikeOf counts ms t p = false → st2.counts.getD p 0 = counts.getD p 0) ∧
        (∀ j, st2.counts.getD j 0 =
          if spikeOf counts ms t j = true ∧ j ∈ l then
            (twoPassValue counts (spikeOf counts ms t) counts.length j).getD 0
          else st.counts.getD j 0)
  | [], st, hlen, hagr =>
    ⟨st, rfl, hlen, hagr, fun j => by
      rw [if_neg (by simp)]⟩
  | i :: rest, st, hlen, hagr => by
    by_cases hsp : spikeOf counts ms t i = true
    · have hiN : i < counts.length := spikeOf_lt_length counts ms t hms i hsp
      obtain ⟨hlu, hru, hne⟩ := despike_scans_ok counts ms t ht hms i hsp
      have hcl : scanSide (spikeOf counts ms t) st.counts (leftPositions i) =
          scanSide (spikeOf counts ms t) counts (leftPositions i) :=
        scanSide_congr _ _ _ hagr _
      have hcr : scanSide (spikeOf counts ms t) st.counts (rightPositions counts.length i) =
          scanSide (spikeOf counts ms t) counts (rightPositions counts.length i) :=
        scanSide_congr _ _ _ hagr _
      have hvals : ∀ res, res ≠ ScanRes.unset →
          ∃ lv, varAfter (st.leftVar) res = some lv ∧ lv.toList = scanVals res := by
        intro res hres
        cases res with
        | found v => exact ⟨some v, rfl, rfl⟩
        | edge => exact ⟨none, rfl, rfl⟩
        | unset => exact absurd rfl hres
      have hvals2 : ∀ res, res ≠ ScanRes.unset →
          ∃ rv, varAfter (st.rightVar) res = some rv ∧ rv.toList = scanVals res := by
        intro res hres
        cases res with
        | found v => exact ⟨some v, rfl, rfl⟩
        | edge => exact ⟨none, rfl, rfl⟩
        | unset => exact absurd rfl hres
      obtain ⟨lv, hlv, hlvt⟩ := hvals _ hlu
      obtain ⟨rv, hrv, hrvt⟩ := hvals2 _ hru
      have hstep : despikeStep (spikeOf counts ms t) counts.length st i =
          some ⟨st.counts.set i
            ((⌊(scanVals (scanSide (spikeOf counts ms t) counts (leftPositions i)) ++
                scanVals (scanSide (spikeOf counts ms t) counts
                  (rightPositions counts.length i))).sum /
              ((scanVals (scanSide (spikeOf counts ms t) counts (leftPositions i)) ++
                scanVals (scanSide (spikeOf counts ms t) counts
                  (rightPositions counts.length i))).length : ℚ)⌋ : ℤ) : ℚ),
            some lv, some rv⟩ := by
        rw [despikeStep, if_pos hsp]
        dsimp only
        rw [hcl, hcr, hlv, hrv]
        dsimp only
        rw [hlvt, hrvt, if_neg (by simpa using hne)]
      have hlen2 : (st.counts.set i
          ((⌊(scanVals (scanSide (spikeOf counts ms t) counts (leftPositions i)) ++
              scanVals (scanSide (spikeOf counts ms t) counts
                (rightPositions counts.length i))).sum /
            ((scanVals (scanSide (spikeOf counts ms t) counts (leftPositions i)) ++
              scanVals (scanSide (spikeOf counts ms t) counts
                (rightPositions counts.length i))).length : ℚ)⌋ : ℤ) : ℚ)).length =
          counts.length := by
        rw [List.length_set, hlen]
      have hagr2 : ∀ p, spikeOf counts ms t p = false →
          (st.counts.set i
            ((⌊(scanVals (scanSide (spikeOf counts ms t) counts (leftPositions i)) ++
                scanVals (scanSide (spikeOf counts ms t) counts
                  (rightPositions counts.length i))).sum /
              ((scanVals (scanSide (spikeOf counts ms t) counts (leftPositions i)) ++
                scanVals (scanSide (spikeOf counts ms t) counts
                  (rightPositions counts.length i))).length : ℚ)⌋ : ℤ) : ℚ)).getD p 0 =
            counts.getD p 0 := by
        intro p hp
        rw [getD_set_iff, if_neg (by
          intro hc
          rw [hc.1] at hp
          rw [hp] at hsp
          cases hsp)]
        exact hagr p hp
      obtain ⟨st2, hst2, hst2len, hst2agr, hst2val⟩ :=
        despikeLoop_spec counts ms t ht hms rest
          ⟨st.counts.set i
            ((⌊(scanVals (scanSide (spikeOf counts ms t) counts (leftPositions i)) ++
                scanVals (scanSide (spikeOf counts ms t) counts
                  (rightPositions counts.length i))).sum /
              ((scanVals (scanSide (spikeOf counts ms t) counts (leftPositions i)) ++
                scanVals (scanSide (spikeOf counts ms t) counts
                  (rightPositions counts.length i))).length : ℚ)⌋ : ℤ) : ℚ),
            some lv, some rv⟩ hlen2 hagr2
      refine ⟨st2, ?_, hst2len, hst2agr, ?_⟩
      · rw [despikeLoop, hstep]
        exact hst2
      · intro j
        rw [hst2val j]
        by_cases hjr : spikeOf counts ms t j = true ∧ j ∈ rest
        · rw [if_pos hjr, if_pos ⟨hjr.1, by simp [hjr.2]⟩]
        · rw [if_neg hjr]
          by_cases hji : j = i
          · subst hji
            rw [if_pos ⟨hsp, by simp⟩, getD_set_iff, if_pos ⟨rfl, by omega⟩,
                twoPassValue_defined counts ms t ht hms j hsp]
            rfl
          · rw [getD_set_iff, if_neg (fun hc => hji hc.1)]
            rw [if_neg (by
              intro hc
              rcases List.mem_cons.mp hc.2 with h | h
              · exact hji h
              · exact hjr ⟨hc.1, h⟩)]
    · have hstep : despikeStep (spikeOf counts ms t) counts.length st i = some st := by
        rw [despikeStep, if_neg hsp]
      obtain ⟨st2, hst2, hst2len, hst2agr, hst2val⟩ :=
        despikeLoop_spec counts ms t ht hms rest st hlen hagr
      refine ⟨st2, ?_, hst2len, hst2agr, ?_⟩
      · rw [despikeLoop, hstep]
        exact hst2
      · intro j
        rw [hst2val j]
        by_cases hjr : spikeOf counts ms t j = true ∧ j ∈ rest
        · rw [if_pos hjr, if_pos ⟨hjr.1, by simp [hjr.2]⟩]
        · rw [if_neg hjr]
          rw [if_neg (by
            intro hc
            rcases List.mem_cons.mp hc.2 with h | h
            · subst h
              rw [hc.1] at hsp
              exact hsp rfl
            · exact hjr ⟨hc.1, h⟩)]

theorem removeCR_characterization (counts : List ℚ) (ms : List (Option ℚ)) (t : ℚ)
    (ht : 0 ≤ t) (hms : despikeMedians counts = some ms) :
    ∃ res, removeCRindDFG counts t = some res ∧ res.length = counts.length ∧
      ∀ j, res.getD j 0 =
        if spikeOf counts ms t j = true then
          (twoPassValue counts (spikeOf counts ms t) counts.length j).getD 0
        else counts.getD j 0 := by
  by_cases hall : (List.range counts.length).all (fun i => !spikeOf counts ms t i) = true
  · refine ⟨counts, ?_, rfl, fun j => ?_⟩
    · simp only [removeCRindDFG, hms, hall]
      rfl
    · by_cases hsp : spikeOf counts ms t j = true
      · have hjN := spikeOf_lt_length counts ms t hms j hsp
        have := List.all_eq_true.mp hall j (List.mem_range.mpr hjN)
        rw [hsp] at this
        cases this
      · rw [if_neg hsp]
  · obtain ⟨st2, hst2, hlen2, _, hval⟩ := despikeLoop_spec counts ms t ht hms
      (List.range counts.length) ⟨counts, none, none⟩ rfl (fun p _ => rfl)
    refine ⟨st2.counts, ?_, hlen2, fun j => ?_⟩
    · simp only [removeCRindDFG, hms, hall, if_false, Bool.false_eq_true, hst2]
      rfl
    · rw [hval j]
      by_cases hsp : spikeOf counts ms t j = true
      · have hjN := spikeOf_lt_length counts ms t hms j hsp
        rw [if_pos ⟨hsp, List.mem_range.mpr hjN⟩, if_pos hsp]
      · rw [if_neg (fun hc => hsp hc.1), if_neg hsp]

/-- C2 (amended): for every nonnegative threshold, the in-place despiker
produces exactly the counts of the strict two-pass despiker that detects
from the immutable snapshot and reads all replacement sources from that
snapshot.  (For a nonnegative threshold no scan ever falls through, and
non-spike positions are never overwritten, so the partially updated array
is read only where it still equals the snapshot.) -/
theorem despike_equals_twoPass (counts : List ℚ) (t : ℚ) (ht : 0 ≤ t) :
    removeCRindDFG counts t = despikeTwoPassSpec counts t := by
  cases hms : despikeMedians counts with
  | none => simp only [removeCRindDFG, despikeTwoPassSpec, hms]
  | some ms =>
    obtain ⟨res, hres, hlen, hval⟩ := removeCR_characterization counts ms t ht hms
    rw [hres]
    simp only [despikeTwoPassSpec, hms]
    have hmap := mapOption_eq_some_of_all
      (fun i => if spikeOf counts ms t i then
          twoPassValue counts (spikeOf counts ms t) counts.length i
        else some (counts.getD i 0))
      (fun i => if spikeOf counts ms t i then
          (twoPassValue counts (spikeOf counts ms t) counts.length i).getD 0
        else counts.getD i 0)
      (List.range counts.length)
      (by
        intro i _
        dsimp only
        by_cases hsp : spikeOf counts ms t i = true
        · rw [if_pos hsp, if_pos hsp, twoPassValue_defined counts ms t ht hms i hsp]
          rfl
        · rw [if_neg hsp, if_neg hsp])
    rw [hmap]
    congr 1
    apply List.ext_getElem
    · rw [hlen, List.length_map, List.length_range]
    · intro n h1 h2
      rw [List.getElem_map, List.getElem_range, ← List.getD_eq_getElem res 0 h1, hval n]

/-- Witness for the amended C2 at the default threshold 200 on a 7-point
trace with one spike. -/
theorem despike_equals_twoPass_witness :
    (0 : ℚ) ≤ 200 ∧
    removeCRindDFG [0, 0, 0, 1000, 0, 0, 0] 200 =
      despikeTwoPassSpec [0, 0, 0, 1000, 0, 0, 0] 200 :=
  ⟨by with_unfolding_all decide,
   despike_equals_twoPass [0, 0, 0, 1000, 0, 0, 0] 200 (by with_unfolding_all decide)⟩

/-- C2 as stated is false for a negative threshold: on this trace the
in-place loop reuses the stale Python variables `left` and `right` from an
earlier iteration when a scan falls through, and returns counts, while the
strict two-pass procedure of the specification collects no value at all at
index 19 and cannot produce counts there. -/
theorem despike_twoPass_counterexample :
    removeCRindDFG
      [0, -100, 0, 0, 0, 0, -200, 0, 0, 0, 0, 0, 0, -300, 0, 0, 0, 0, 0, 0] (-10) =
      some [-100, -100, -150, -150, -150, -150, -200, -200, -250, -250, -250, -250, -250,
            -300, -300, -300, -300, -300, -300, -300] ∧
    despikeTwoPassSpec
      [0, -100, 0, 0, 0, 0, -200, 0, 0, 0, 0, 0, 0, -300, 0, 0, 0, 0, 0, 0] (-10) = none ∧
    some ([-100, -100, -150, -150, -150, -150, -200, -200, -250, -250, -250, -250, -250,
           -300, -300, -300, -300, -300, -300, -300] : List ℚ) ≠ (none : Option (List ℚ)) :=
  ⟨by with_unfolding_all rfl, by with_unfolding_all rfl, by decide⟩

/-- C4 (amended): for a nonnegative threshold, the value written at every
spike index is the floor of the arithmetic mean of the one or two values
found by scanning up to five positions left and right of the index over
the pre-replacement snapshot, a side that runs off the array contributing
no value. -/
theorem despike_replacement_mean (counts : List ℚ) (t : ℚ) (ht : 0 ≤ t)
    (ms : List (Option ℚ)) (hms : despikeMedians counts = some ms) (res : List ℚ)
    (hres : removeCRindDFG counts t = some res) (i : ℕ)
    (hsp : spikeOf counts ms t i = true) :
    res.getD i 0 =
      ((⌊(scanVals (scanSide (spikeOf counts ms t) counts (leftPositions i)) ++
          scanVals (scanSide (spikeOf counts ms t) counts
            (rightPositions counts.length i))).sum /
        ((scanVals (scanSide (spikeOf counts ms t) counts (leftPositions i)) ++
          scanVals (scanSide (spikeOf counts ms t) counts
            (rightPositions counts.length i))).length : ℚ)⌋ : ℤ) : ℚ) := by
  obtain ⟨res2, hres2, _, hval⟩ := removeCR_characterization counts ms t ht hms
  obtain rfl := Option.some.inj (hres2.symm.trans hres)
  rw [hval i, if_pos hsp, twoPassValue_defined counts ms t ht hms i hsp]
  rfl

/-- Witness for the amended C4: the spike 1000 at index 3 is replaced by
the mean 0 of its two immediate non-spike neighbors. -/
theorem despike_replacement_mean_witness :
    (0 : ℚ) ≤ 200 ∧
    despikeMedians [0, 0, 0, 1000, 0, 0, 0] =
      some [some 0, some 0, some 0, some 0, some 0, some 0, some 0] ∧
    removeCRindDFG [0, 0, 0, 1000, 0, 0, 0] 200 = some [0, 0, 0, 0, 0, 0, 0] ∧
    spikeOf [0, 0, 0, 1000, 0, 0, 0]
      [some 0, some 0, some 0, some 0, some 0, some 0, some 0] 200 3 = true ∧
    ([0, 0, 0, 0, 0, 0, 0] : List ℚ).getD 3 0 =
      ((⌊(scanVals (scanSide (spikeOf [0, 0, 0, 1000, 0, 0, 0]
            [some 0, some 0, some 0, some 0, some 0, some 0, some 0] 200)
            [0, 0, 0, 1000, 0, 0, 0] (leftPositions 3)) ++
          scanVals (scanSide (spikeOf [0, 0, 0, 1000, 0, 0, 0]
            [some 0, some 0, some 0, some 0, some 0, some 0, some 0] 200)
            [0, 0, 0, 1000, 0, 0, 0]
            (rightPositions ([0, 0, 0, 1000, 0, 0, 0] : List ℚ).length 3))).sum /
        ((scanVals (scanSide (spikeOf [0, 0, 0, 1000, 0, 0, 0]
            [some 0, some 0, some 0, some 0, some 0, some 0, some 0] 200)
            [0, 0, 0, 1000, 0, 0, 0] (leftPositions 3)) ++
          scanVals (scanSide (spikeOf [0, 0, 0, 1000, 0, 0, 0]
            [some 0, some 0, some 0, some 0, some 0, some 0, some 0] 200)
            [0, 0, 0, 1000, 0, 0, 0]
            (rightPositions ([0, 0, 0, 1000, 0, 0, 0] : List ℚ).length 3))).length : ℚ)⌋
        : ℤ) : ℚ) :=
  ⟨by with_unfolding_all decide, by with_unfolding_all rfl, by with_unfolding_all rfl,
   by with_unfolding_all decide,
   despike_replacement_mean [0, 0, 0, 1000, 0, 0, 0] 200 (by with_unfolding_all decide)
     [some 0, some 0, some 0, some 0, some 0, some 0, some 0] (by with_unfolding_all rfl)
     [0, 0, 0, 0, 0, 0, 0] (by with_unfolding_all rfl) 3 (by with_unfolding_all decide)⟩

/-- C4 as stated is false for a negative threshold: at spike index 12 of
this trace the snapshot scans find only the single value -300 on the right
(the five left neighbors are all spikes), so the floored mean of the found
values is -300, but the code writes -250, the mean of the found value with
a stale variable from an earlier iteration. -/
theorem despike_replacement_counterexample :
    despikeMedians [0, -100, 0, 0, 0, 0, -200, 0, 0, 0, 0, 0, 0, -300, 0, 0, 0, 0, 0, 0] =
      some (List.replicate 20 (some 0)) ∧
    removeCRindDFG
      [0, -100, 0, 0, 0, 0, -200, 0, 0, 0, 0, 0, 0, -300, 0, 0, 0, 0, 0, 0] (-10) =
      some [-100, -100, -150, -150, -150, -150, -200, -200, -250, -250, -250, -250, -250,
            -300, -300, -300, -300, -300, -300, -300] ∧
    spikeOf [0, -100, 0, 0, 0, 0, -200, 0, 0, 0, 0, 0, 0, -300, 0, 0, 0, 0, 0, 0]
      (List.replicate 20 (some 0)) (-10) 12 = true ∧
    ([-100, -100, -150, -150, -150, -150, -200, -200, -250, -250, -250, -250, -250,
      -300, -300, -300, -300, -300, -300, -300] : List ℚ).getD 12 0 = -250 ∧
    ((⌊(scanVals (scanSide (spikeOf
          [0, -100, 0, 0, 0, 0, -200, 0, 0, 0, 0, 0, 0, -300, 0, 0, 0, 0, 0, 0]
          (List.replicate 20 (some 0)) (-10))
          [0, -100, 0, 0, 0, 0, -200, 0, 0, 0, 0, 0, 0, -300, 0, 0, 0, 0, 0, 0]
          (leftPositions 12)) ++
        scanVals (scanSide (spikeOf
          [0, -100, 0, 0, 0, 0, -200, 0, 0, 0, 0, 0, 0, -300, 0, 0, 0, 0, 0, 0]
          (List.replicate 20 (some 0)) (-10))
          [0, -100, 0, 0, 0, 0, -200, 0, 0, 0, 0, 0, 0, -300, 0, 0, 0, 0, 0, 0]
          (rightPositions 20 12))).sum /
      ((scanVals (scanSide (spikeOf
          [0, -100, 0, 0, 0, 0, -200, 0, 0, 0, 0, 0, 0, -300, 0, 0, 0, 0, 0, 0]
          (List.replicate 20 (some 0)) (-10))
          [0, -100, 0, 0, 0, 0, -200, 0, 0, 0, 0, 0, 0, -300, 0, 0, 0, 0, 0, 0]
          (leftPositions 12)) ++
        scanVals (scanSide (spikeOf
          [0, -100, 0, 0, 0, 0, -200, 0, 0, 0, 0, 0, 0, -300, 0, 0, 0, 0, 0, 0]
          (List.replicate 20 (some 0)) (-10))
          [0, -100, 0, 0, 0, 0, -200, 0, 0, 0, 0, 0, 0, -300, 0, 0, 0, 0, 0, 0]
          (rightPositions 20 12))).length : ℚ)⌋ : ℤ) : ℚ) = -300 ∧
    ((-250 : ℚ) ≠ (-300 : ℚ)) :=
  ⟨by with_unfolding_all rfl, by with_unfolding_all rfl, by with_unfolding_all decide,
   by with_unfolding_all rfl, by with_unfolding_all rfl, by decide⟩
